import Mathlib

/-!
# Verification of the BSpline polynomial kernel

Shallow embedding of the repository's polynomial class (`src/include/Poly.h`)
and of the NURBS point-sampling code (`src/unnamed/part_000`), with theorems
settling the frozen claims about them.

Modelling conventions (documented once here):

* The C++ scalar `T = long double` is modelled by `ℚ`; `std::complex<T>` is
  modelled by `GQ` (pairs of rationals with complex arithmetic).  Floating
  point literals such as `1e-12` are modelled by the exact rationals they
  denote (`1/10^12`).  Tolerance comparisons `std::abs(z) < eps` on complex
  values compare real magnitudes; magnitudes of complex values are obtained
  through an explicit model function (`CModels.cabs`), since the exact
  magnitude is irrational in general.
* `std::sqrt` on complex numbers, and `std::sqrt`/`std::acos`/`std::cos`/
  `std::pow`/`M_PI` on reals, are transcendental library functions; they are
  modelled as explicit parameters (`CModels.csqrt`, `RModels`).  Claims about
  the surrounding control flow are stated for every instantiation of these
  parameters.
* `std::vector` indexing is modelled with `List.getD _ _ 0`; an out-of-bounds
  C++ access (undefined behaviour) reads the default `0` in the model, and
  the theorems either exclude such inputs by hypothesis or instrument the
  access so the overflow itself is observable.
* A C++ `throw` is modelled by `Except.error`.

The `Poly` class stores coefficients highest-degree first together with a
cached degree field; both fields are carried explicitly.
-/

namespace BS

/-- Complex numbers with rational components, modelling `std::complex<long double>`
with exact arithmetic. -/
structure GQ where
  re : ℚ
  im : ℚ
deriving DecidableEq

instance : Zero GQ := ⟨⟨0, 0⟩⟩

instance : One GQ := ⟨⟨1, 0⟩⟩

instance : Add GQ := ⟨fun a b => ⟨a.re + b.re, a.im + b.im⟩⟩

instance : Neg GQ := ⟨fun a => ⟨-a.re, -a.im⟩⟩

instance : Sub GQ := ⟨fun a b => a + -b⟩

instance : Mul GQ := ⟨fun a b => ⟨a.re * b.re - a.im * b.im, a.re * b.im + a.im * b.re⟩⟩

/-- Complex division `a/b` via the conjugate formula, exactly as the textbook
formula implemented by `std::complex`; division by zero yields `0` in the
model (C++ would produce non-finite values, excluded by the claims). -/
instance : Div GQ := ⟨fun a b =>
  ⟨(a.re * b.re + a.im * b.im) / (b.re * b.re + b.im * b.im),
   (a.im * b.re - a.re * b.im) / (b.re * b.re + b.im * b.im)⟩⟩

instance : NatCast GQ := ⟨fun n => ⟨(n : ℚ), 0⟩⟩

/-- Embedding of a real scalar into `GQ` (the implicit `T → complex<T>`
conversion of C++). -/
def ratC (q : ℚ) : GQ := ⟨q, 0⟩

/-- The squared magnitude of a complex value; comparisons of magnitudes in the
source are faithfully decided by comparing squared magnitudes. -/
def normSq (z : GQ) : ℚ := z.re * z.re + z.im * z.im

/-- `template<typename T> class Poly`: a dense polynomial, coefficients stored
highest-degree first (`coef_`), together with the cached degree field
(`deg_`).  Both C++ data members are carried explicitly. -/
structure Poly (α : Type) where
  coef : List α
  deg : ℕ
deriving DecidableEq

/-- The class invariant stated by the spec: the coefficient sequence is
non-empty and the degree field equals its length minus one. -/
def Wf {α : Type} (p : Poly α) : Prop := p.coef ≠ [] ∧ p.deg + 1 = p.coef.length

variable {α : Type} [Zero α] [One α] [Add α] [Neg α] [Sub α] [Mul α] [Div α]
  [DecidableEq α] [NatCast α]

instance (p : Poly α) : Decidable (Wf p) := by
  unfold Wf; infer_instance

/-- `Poly(std::vector<T> coef)`: degree is set to size minus one. -/
def mkPoly (l : List α) : Poly α := ⟨l, l.length - 1⟩

/-- `Poly()`: the zero polynomial `[0]`. -/
def zeroPoly : Poly α := ⟨[0], 0⟩

/-- `Poly(T value)`: a constant polynomial. -/
def constPoly (v : α) : Poly α := ⟨[v], 0⟩

/-- `Poly(size_t deg, T value)`: `deg+1` copies of `value`. -/
def polyOfDeg (d : ℕ) (v : α) : Poly α := ⟨List.replicate (d + 1) v, d⟩

/-- `coef_[i]` (`operator[]`). -/
def getC (p : Poly α) (i : ℕ) : α := p.coef.getD i 0

/-- `Clear()`. -/
def clearP (_p : Poly α) : Poly α := ⟨[0], 0⟩

/-- `plus(lhs, rhs)`: copies `lhs` and adds `rhs` into the low-order end,
looping `i = 0..rhs.deg` and updating `temp[lhs.deg - i] += rhs[rhs.deg - i]`. -/
def plus (lhs rhs : Poly α) : Poly α :=
  ⟨(List.range (rhs.deg + 1)).foldl
      (fun t i =>
        t.set (lhs.deg - i) (t.getD (lhs.deg - i) 0 + rhs.coef.getD (rhs.deg - i) 0))
      lhs.coef,
   lhs.deg⟩

/-- `operator+`: dispatches so the higher-degree operand is copied. -/
def padd (p1 p2 : Poly α) : Poly α :=
  if p2.deg ≤ p1.deg then plus p1 p2 else plus p2 p1

/-- Unary `operator-`: negates every coefficient in a copy. -/
def pneg (p : Poly α) : Poly α :=
  ⟨(List.range (p.deg + 1)).map (fun i => -(p.coef.getD i 0)), p.deg⟩

/-- `operator-(lhs, rhs) = lhs + (-rhs)`. -/
def psub (lhs rhs : Poly α) : Poly α := padd lhs (pneg rhs)

/-- `operator*(p1, p2)`: full convolution into a zero-filled result of degree
`deg1 + deg2`. -/
def pmul (p1 p2 : Poly α) : Poly α :=
  ⟨(List.range (p1.deg + 1)).foldl
      (fun r i =>
        (List.range (p2.deg + 1)).foldl
          (fun r j =>
            r.set (i + j) (r.getD (i + j) 0 + p1.coef.getD i 0 * p2.coef.getD j 0))
          r)
      (List.replicate (p1.deg + p2.deg + 1) 0),
   p1.deg + p2.deg⟩

/-- `operator*(p, value)`: returns the zero polynomial when `value == 0`,
otherwise scales every coefficient. -/
def smul (p : Poly α) (v : α) : Poly α :=
  if v = 0 then ⟨[0], 0⟩
  else ⟨(List.range (p.deg + 1)).map (fun i => p.coef.getD i 0 * v), p.deg⟩

/-- `operator/(p, value)`: divides every coefficient. -/
def sdiv (p : Poly α) (v : α) : Poly α :=
  ⟨(List.range (p.deg + 1)).map (fun i => p.coef.getD i 0 / v), p.deg⟩

/-- `der()`: derivative; special cases for degree 0 and 1, otherwise
`tmp[i] = coef[i] * (deg - i)` for `i < deg`. -/
def der (p : Poly α) : Poly α :=
  if p.deg = 0 then mkPoly [0]
  else if p.deg = 1 then mkPoly [p.coef.getD 0 0]
  else mkPoly ((List.range p.deg).map (fun i => p.coef.getD i 0 * ((p.deg - i : ℕ) : α)))

/-- `antider()`: antiderivative with zero constant of integration;
`tmp[i] = coef[i] / (deg - i + 1)` for `i ≤ deg`, and a trailing `0`. -/
def antider (p : Poly α) : Poly α :=
  if p.deg = 0 then mkPoly [p.coef.getD 0 0, 0]
  else mkPoly
    (((List.range (p.deg + 1)).map (fun i => p.coef.getD i 0 / ((p.deg - i + 1 : ℕ) : α))) ++ [0])

/-- `At(x)`: Horner evaluation driven by the degree field,
`b = coef[0]; for d = 1..deg: b = coef[d] + b*x`. -/
def At (p : Poly α) (x : α) : α :=
  (List.range p.deg).foldl (fun b d => p.coef.getD (d + 1) 0 + b * x) (p.coef.getD 0 0)

/-- `eval(x)`: reverse iteration accumulating `sum += t * coef[i]; t *= x`. -/
def eval (p : Poly α) (x : α) : α :=
  if p.deg = 0 then p.coef.getD 0 0
  else (p.coef.reverse.foldl (fun st c => (st.1 + st.2 * c, st.2 * x)) ((0 : α), (1 : α))).1

/-- The index scan of `update()`: advance while `coef[i] == 0 && i < deg`.
The loop runs at most `deg` times, so fuel `deg + 1` is exact. -/
def updIdx (l : List α) (dg : ℕ) : ℕ → ℕ → ℕ
  | i, 0 => i
  | i, fuel + 1 => if l.getD i 0 = 0 ∧ i < dg then updIdx l dg (i + 1) fuel else i

/-- `update()`: strips exactly-zero leading coefficients; the
`i == deg + 1` branch is kept although it is unreachable. -/
def update (p : Poly α) : Poly α :=
  if updIdx p.coef p.deg 0 (p.deg + 1) = p.deg + 1 then ⟨[0], 0⟩
  else ⟨p.coef.drop (updIdx p.coef p.deg 0 (p.deg + 1)),
    p.deg - updIdx p.coef p.deg 0 (p.deg + 1)⟩

/-- The index scan of `update_real()`: advance while `|coef[i]| < 1e-8 && i < deg`. -/
def updIdxReal (l : List ℚ) (dg : ℕ) : ℕ → ℕ → ℕ
  | i, 0 => i
  | i, fuel + 1 =>
    if |l.getD i 0| < (1 : ℚ) / 10 ^ 8 ∧ i < dg then updIdxReal l dg (i + 1) fuel else i

/-- `update_real()`: strips near-zero (`< 1e-8`) leading coefficients. -/
def update_real (p : Poly ℚ) : Poly ℚ :=
  if updIdxReal p.coef p.deg 0 (p.deg + 1) = p.deg + 1 then ⟨[0], 0⟩
  else ⟨p.coef.drop (updIdxReal p.coef p.deg 0 (p.deg + 1)),
    p.deg - updIdxReal p.coef p.deg 0 (p.deg + 1)⟩

/-- `resize(deg)`: drops the first `old deg - new deg` coefficients and
overwrites the degree field (meaningful for `deg ≤ old deg`). -/
def resizeP (p : Poly α) (d : ℕ) : Poly α := ⟨p.coef.drop (p.deg - d), d⟩

/-- `normalize()`: if the leading coefficient `a0 = coef[0]` is nonzero,
divide every coefficient by it; always return `a0`.  Returned as
(new polynomial, returned scalar). -/
def normalize (p : Poly α) : Poly α × α :=
  if p.coef.getD 0 0 = 0 then (p, p.coef.getD 0 0)
  else (⟨p.coef.map (fun c => c / p.coef.getD 0 0), p.deg⟩, p.coef.getD 0 0)

/-- `operator==`: the coefficient vectors compare equal (the degree fields are
not compared). -/
def peq (p q : Poly α) : Prop := p.coef = q.coef

instance (p q : Poly α) : Decidable (peq p q) := by
  unfold peq; infer_instance

/-- The inner loop of polynomial division: for `j = 1..rhs.deg`, subtract
`rhs[j] * a / rhs[0]` from `rem[i + j]`. -/
def divInner (rhs : Poly α) (a : α) (i : ℕ) (r : List α) : List α :=
  (List.range rhs.deg).foldl
    (fun r j =>
      r.set (i + j + 1) (r.getD (i + j + 1) 0 - rhs.coef.getD (j + 1) 0 * a / rhs.coef.getD 0 0))
    r

/-- One iteration of the division loop: read `a = rem[i]`, zero `rem[i]`,
append `a / rhs[0]` to the quotient and run the inner subtraction loop. -/
def divStep (rhs : Poly α) (st : List α × List α) (i : ℕ) : List α × List α :=
  let a := st.1.getD i 0
  (divInner rhs a i (st.1.set i 0), st.2 ++ [a / rhs.coef.getD 0 0])

/-- `operator/(lhs, rhs)` (polynomial long division): throws a `logic_error`
when `deg lhs < deg rhs`; otherwise for `i = 0..deg1-deg2` zeroes `rem[i]`,
appends `rem[i]/rhs[0]` to the quotient and subtracts `rhs[j]*a_i/rhs[0]`
from `rem[i+j]` for `j = 1..deg2`; finally the remainder is `update()`d. -/
def polyDiv (lhs rhs : Poly α) : Except String (Poly α × Poly α) :=
  if lhs.deg < rhs.deg then
    .error ("deg lhs poly < deg rhs poly. Operator /")
  else
    .ok (mkPoly
        ((List.range (lhs.deg - rhs.deg + 1)).foldl (divStep rhs) (lhs.coef, ([] : List α))).2,
      update ⟨((List.range (lhs.deg - rhs.deg + 1)).foldl (divStep rhs)
        (lhs.coef, ([] : List α))).1, lhs.deg⟩)

/-- The quotient of `p / q`, or the zero polynomial if division throws
(`operator/=` only ever uses the quotient `[0]` component). -/
def divQuot (p q : Poly α) : Poly α :=
  match polyDiv p q with
  | .ok r => r.1
  | .error _ => ⟨[0], 0⟩

/-! ## Evaluation semantics

`evalL l x` is the value at `x` of the polynomial whose coefficient list
(highest degree first) is `l`.  It is the Horner scheme, the same recurrence
as the class method `At`; it serves as the mathematical meaning of a
coefficient vector in the theorems below. -/

/-- Value at `x` of the polynomial with (highest-first) coefficient list `l`. -/
def evalL (l : List ℚ) (x : ℚ) : ℚ := l.foldl (fun acc c => acc * x + c) 0

theorem evalL_foldl_acc (l : List ℚ) (acc x : ℚ) :
    l.foldl (fun a c => a * x + c) acc = acc * x ^ l.length + evalL l x := by
  induction l generalizing acc with
  | nil => simp [evalL]
  | cons c l ih =>
    simp only [List.foldl_cons, List.length_cons, evalL]
    rw [ih (acc * x + c), ih (0 * x + c)]
    ring

theorem evalL_nil (x : ℚ) : evalL [] x = 0 := rfl

theorem evalL_cons (c : ℚ) (l : List ℚ) (x : ℚ) :
    evalL (c :: l) x = c * x ^ l.length + evalL l x := by
  simp only [evalL, List.foldl_cons]
  rw [evalL_foldl_acc]
  simp only [evalL]
  ring

theorem evalL_append (u v : List ℚ) (x : ℚ) :
    evalL (u ++ v) x = evalL u x * x ^ v.length + evalL v x := by
  simp only [evalL, List.foldl_append]
  rw [evalL_foldl_acc]
  simp only [evalL]

theorem evalL_mid (t d : List ℚ) (c x : ℚ) :
    evalL (t ++ c :: d) x = evalL t x * x ^ (d.length + 1) + c * x ^ d.length + evalL d x := by
  rw [evalL_append, evalL_cons]
  simp only [List.length_cons]
  ring

theorem evalL_set (l : List ℚ) (i : ℕ) (v x : ℚ) (h : i < l.length) :
    evalL (l.set i v) x = evalL l x + (v - l.getD i 0) * x ^ (l.length - 1 - i) := by
  have hdec : l.take i ++ l[i] :: l.drop (i + 1) = l := by
    rw [List.getElem_cons_drop l i h, List.take_append_drop]
  have hd : (l.drop (i + 1)).length = l.length - 1 - i := by
    simp [List.length_drop]; omega
  have ha : l.getD i 0 = l[i] := List.getD_eq_getElem l 0 h
  have hEl : evalL l x =
      evalL (l.take i) x * x ^ (l.length - 1 - i + 1) + l[i] * x ^ (l.length - 1 - i) +
        evalL (l.drop (i + 1)) x := by
    conv_lhs => rw [← hdec]
    rw [evalL_mid, hd]
  rw [List.set_eq_take_cons_drop v h, evalL_mid, hd, hEl, ha]
  ring

theorem evalL_sum (l : List ℚ) (x : ℚ) :
    evalL l x = ∑ t ∈ Finset.range l.length, l.getD t 0 * x ^ (l.length - 1 - t) := by
  induction l with
  | nil => simp [evalL]
  | cons c l ih =>
    rw [evalL_cons, ih]
    simp only [List.length_cons]
    rw [Finset.sum_range_succ']
    simp only [List.getD_cons_succ, List.getD_cons_zero]
    have h1 : ∀ t ∈ Finset.range l.length,
        l.getD t 0 * x ^ (l.length + 1 - 1 - (t + 1)) = l.getD t 0 * x ^ (l.length - 1 - t) := by
      intro t ht
      have := Finset.mem_range.mp ht
      congr 2
      omega
    rw [Finset.sum_congr rfl h1]
    have h2 : l.length + 1 - 1 - 0 = l.length := by omega
    rw [h2]
    ring

theorem evalL_eq_zero_of_all_zero (l : List ℚ) (x : ℚ)
    (h : ∀ j < l.length, l.getD j 0 = 0) : evalL l x = 0 := by
  rw [evalL_sum]
  refine Finset.sum_eq_zero (fun t ht => ?_)
  rw [h t (Finset.mem_range.mp ht)]
  ring

theorem evalL_drop_of_prefix_zero (l : List ℚ) (i : ℕ) (x : ℚ)
    (h : ∀ j < i, l.getD j 0 = 0) : evalL (l.drop i) x = evalL l x := by
  conv_rhs => rw [← List.take_append_drop i l]
  rw [evalL_append]
  have : evalL (l.take i) x = 0 := by
    refine evalL_eq_zero_of_all_zero _ x (fun j hj => ?_)
    have hj' : j < i := by simp [List.length_take] at hj; omega
    have hjl : j < l.length := by simp [List.length_take] at hj; omega
    have hz := h j hj'
    rw [List.getD_eq_getElem _ 0 hjl] at hz
    rw [List.getD_eq_getElem _ 0 hj, List.getElem_take]
    exact hz
  rw [this]
  ring

/-! ## Small list access lemmas used throughout -/

theorem getD_set_self (l : List ℚ) (i : ℕ) (v : ℚ) (h : i < l.length) :
    (l.set i v).getD i 0 = v := by
  rw [List.getD_eq_getElem _ 0 (by simpa using h)]
  simp [List.getElem_set_self]

theorem getD_set_ne {γ : Type} [Inhabited γ] (l : List γ) (i j : ℕ) (v d : γ) (hne : i ≠ j) :
    (l.set i v).getD j d = l.getD j d := by
  simp [List.getD_eq_getElem?_getD, List.getElem?_set_ne hne]

theorem length_foldl_set_inv {γ β : Type} (g : List γ → β → List γ)
    (hg : ∀ l b, (g l b).length = l.length) (bs : List β) (l : List γ) :
    (bs.foldl g l).length = l.length := by
  induction bs generalizing l with
  | nil => rfl
  | cons b bs ih => rw [List.foldl_cons, ih, hg]

theorem getD_map_range {γ : Type} [Inhabited γ] (f : ℕ → γ) (n j : ℕ) (d : γ) (h : j < n) :
    ((List.range n).map f).getD j d = f j := by
  rw [List.getD_eq_getElem _ d (by simpa using h)]
  simp

/-! ## Properties of the trimming scan `updIdx` -/

theorem updIdx_ge_start (l : List ℚ) (dg : ℕ) :
    ∀ fuel i, i ≤ updIdx l dg i fuel := by
  intro fuel
  induction fuel with
  | zero => intro i; simp [updIdx]
  | succ fuel ih =>
    intro i
    simp only [updIdx]
    split
    · exact le_trans (Nat.le_succ i) (ih (i + 1))
    · exact le_refl i

theorem updIdx_le (l : List ℚ) (dg : ℕ) :
    ∀ fuel i, i ≤ dg → updIdx l dg i fuel ≤ dg := by
  intro fuel
  induction fuel with
  | zero => intro i hi; simpa [updIdx] using hi
  | succ fuel ih =>
    intro i hi
    simp only [updIdx]
    split
    · next hc => exact ih (i + 1) hc.2
    · exact hi

theorem updIdx_zeros (l : List ℚ) (dg : ℕ) :
    ∀ fuel i j, i ≤ j → j < updIdx l dg i fuel → l.getD j 0 = 0 := by
  intro fuel
  induction fuel with
  | zero =>
    intro i j hij hj
    simp [updIdx] at hj
    omega
  | succ fuel ih =>
    intro i j hij hj
    simp only [updIdx] at hj
    by_cases hc : l.getD i 0 = 0 ∧ i < dg
    · rw [if_pos hc] at hj
      rcases Nat.eq_or_lt_of_le hij with h | h
      · exact h ▸ hc.1
      · exact ih (i + 1) j h hj
    · rw [if_neg hc] at hj
      omega

theorem updIdx_ge (l : List ℚ) (dg t : ℕ) (hz : ∀ j, j < t → l.getD j 0 = 0) (ht : t ≤ dg) :
    ∀ fuel i, i ≤ t → t - i ≤ fuel → t ≤ updIdx l dg i fuel := by
  intro fuel
  induction fuel with
  | zero => intro i hi hf; simp [updIdx]; omega
  | succ fuel ih =>
    intro i hi hf
    simp only [updIdx]
    rcases Nat.eq_or_lt_of_le hi with h | h
    · subst h
      split
      · exact le_trans (Nat.le_succ i) (updIdx_ge_start l dg fuel (i + 1))
      · exact le_refl i
    · have hc : l.getD i 0 = 0 ∧ i < dg := ⟨hz i h, lt_of_lt_of_le h ht⟩
      rw [if_pos hc]
      exact ih (i + 1) h (by omega)

/-! ## The division loop invariant (claim C1) -/

theorem divInner_length (rhs : Poly ℚ) (a : ℚ) (i : ℕ) (r : List ℚ) :
    (divInner rhs a i r).length = r.length := by
  unfold divInner
  exact length_foldl_set_inv _ (fun l b => List.length_set l _ _) _ r

theorem divInner_getD_low (rhs : Poly ℚ) (a : ℚ) (i jj : ℕ) (r : List ℚ) (hjj : jj ≤ i) :
    (divInner rhs a i r).getD jj 0 = r.getD jj 0 := by
  unfold divInner
  generalize List.range rhs.deg = js
  induction js generalizing r with
  | nil => rfl
  | cons j js ih =>
    rw [List.foldl_cons, ih]
    exact getD_set_ne _ _ _ _ _ (by omega)

theorem divInner_aux (B : Poly ℚ) (a x : ℚ) (i n : ℕ) :
    ∀ (M : ℕ) (r : List ℚ), r.length = n + 1 → i + M ≤ n →
    evalL ((List.range M).foldl
      (fun r j =>
        r.set (i + j + 1) (r.getD (i + j + 1) 0 - B.coef.getD (j + 1) 0 * a / B.coef.getD 0 0))
      r) x
      = evalL r x -
        ∑ j ∈ Finset.range M, B.coef.getD (j + 1) 0 * a / B.coef.getD 0 0 * x ^ (n - (i + j + 1)) := by
  intro M
  induction M with
  | zero => intro r hr hM; simp
  | succ M ih =>
    intro r hr hM
    rw [List.range_succ, List.foldl_append, List.foldl_cons, List.foldl_nil]
    set prev := (List.range M).foldl
      (fun r j =>
        r.set (i + j + 1) (r.getD (i + j + 1) 0 - B.coef.getD (j + 1) 0 * a / B.coef.getD 0 0))
      r with hprev
    have hlen : prev.length = n + 1 := by
      rw [hprev]
      exact length_foldl_set_inv _ (fun l b => List.length_set l _ _) _ r |>.trans hr
    have hidx : i + M + 1 < prev.length := by omega
    rw [evalL_set _ _ _ _ hidx, ih r hr (by omega), Finset.sum_range_succ, hlen]
    have hexp : n + 1 - 1 - (i + M + 1) = n - (i + M + 1) := by omega
    rw [hexp]
    ring

theorem divInner_eval (B : Poly ℚ) (a x : ℚ) (i n : ℕ) (r : List ℚ)
    (hr : r.length = n + 1) (hM : i + B.deg ≤ n) :
    evalL (divInner B a i r) x
      = evalL r x -
        ∑ j ∈ Finset.range B.deg,
          B.coef.getD (j + 1) 0 * a / B.coef.getD 0 0 * x ^ (n - (i + j + 1)) :=
  divInner_aux B a x i n B.deg r hr hM

theorem evalL_push (u : List ℚ) (c x : ℚ) : evalL (u ++ [c]) x = evalL u x * x + c := by
  rw [evalL_append, evalL_cons, evalL_nil]
  simp only [List.length_cons, List.length_nil, pow_one, pow_zero]
  ring

theorem divLoop_inv (A B : Poly ℚ) (hWA : Wf A) (hWB : Wf B) (hdeg : B.deg ≤ A.deg)
    (hB0 : B.coef.getD 0 0 ≠ 0) :
    ∀ K, K ≤ A.deg - B.deg + 1 →
    ((List.range K).foldl (divStep B) (A.coef, ([] : List ℚ))).1.length = A.deg + 1 ∧
    ((List.range K).foldl (divStep B) (A.coef, ([] : List ℚ))).2.length = K ∧
    (∀ j, j < K → ((List.range K).foldl (divStep B) (A.coef, ([] : List ℚ))).1.getD j 0 = 0) ∧
    ∀ x, evalL ((List.range K).foldl (divStep B) (A.coef, ([] : List ℚ))).1 x +
        evalL B.coef x * evalL ((List.range K).foldl (divStep B) (A.coef, ([] : List ℚ))).2 x *
          x ^ (A.deg - B.deg + 1 - K) = evalL A.coef x := by
  intro K
  induction K with
  | zero =>
    intro hK
    refine ⟨hWA.2.symm, rfl, by omega, fun x => ?_⟩
    simp [evalL_nil]
  | succ K ih =>
    intro hK
    obtain ⟨ihlen, ihqlen, ihz, ihev⟩ := ih (by omega)
    rw [List.range_succ, List.foldl_append, List.foldl_cons, List.foldl_nil]
    set st := (List.range K).foldl (divStep B) (A.coef, ([] : List ℚ)) with hst
    set aK := st.1.getD K 0 with haK
    have hKlt : K < st.1.length := by omega
    have hlen1 : (st.1.set K 0).length = A.deg + 1 := by rw [List.length_set]; exact ihlen
    constructor
    · show (divInner B aK K (st.1.set K 0)).length = A.deg + 1
      rw [divInner_length]; exact hlen1
    constructor
    · show (st.2 ++ [aK / B.coef.getD 0 0]).length = K + 1
      rw [List.length_append, ihqlen]; rfl
    constructor
    · intro j hj
      show (divInner B aK K (st.1.set K 0)).getD j 0 = 0
      rw [divInner_getD_low _ _ _ _ _ (by omega)]
      rcases Nat.lt_or_ge j K with h | h
      · rw [getD_set_ne _ _ _ _ _ (by omega)]
        exact ihz j h
      · have : j = K := by omega
        subst this
        exact getD_set_self _ _ _ hKlt
    · intro x
      show evalL (divInner B aK K (st.1.set K 0)) x +
          evalL B.coef x * evalL (st.2 ++ [aK / B.coef.getD 0 0]) x *
            x ^ (A.deg - B.deg + 1 - (K + 1)) = evalL A.coef x
      have hKm : K + B.deg ≤ A.deg := by omega
      rw [divInner_eval B aK x K A.deg (st.1.set K 0) hlen1 hKm,
        evalL_set _ _ _ _ hKlt, evalL_push]
      have hexpK : st.1.length - 1 - K = A.deg - K := by omega
      rw [hexpK, ← haK]
      have hBsum : evalL B.coef x * (aK / B.coef.getD 0 0) * x ^ (A.deg - B.deg - K)
          = aK * x ^ (A.deg - K) +
            ∑ j ∈ Finset.range B.deg,
              B.coef.getD (j + 1) 0 * aK / B.coef.getD 0 0 * x ^ (A.deg - (K + j + 1)) := by
        rw [evalL_sum, show B.coef.length = B.deg + 1 from hWB.2.symm]
        rw [Finset.sum_range_succ', add_mul, add_mul, Finset.sum_mul, Finset.sum_mul]
        have h0 : B.coef.getD 0 0 * x ^ (B.deg + 1 - 1 - 0) * (aK / B.coef.getD 0 0) *
            x ^ (A.deg - B.deg - K) = aK * x ^ (A.deg - K) := by
          rw [show B.deg + 1 - 1 - 0 = B.deg from by omega]
          calc B.coef.getD 0 0 * x ^ B.deg * (aK / B.coef.getD 0 0) * x ^ (A.deg - B.deg - K)
              = aK / B.coef.getD 0 0 * B.coef.getD 0 0 *
                  (x ^ B.deg * x ^ (A.deg - B.deg - K)) := by ring
            _ = aK * x ^ (B.deg + (A.deg - B.deg - K)) := by
                rw [div_mul_cancel₀ _ hB0, pow_add]
            _ = aK * x ^ (A.deg - K) := by
                rw [show B.deg + (A.deg - B.deg - K) = A.deg - K from by omega]
        have hj : ∀ j ∈ Finset.range B.deg,
            B.coef.getD (j + 1) 0 * x ^ (B.deg + 1 - 1 - (j + 1)) * (aK / B.coef.getD 0 0) *
              x ^ (A.deg - B.deg - K)
            = B.coef.getD (j + 1) 0 * aK / B.coef.getD 0 0 * x ^ (A.deg - (K + j + 1)) := by
          intro j hjr
          have hjm := Finset.mem_range.mp hjr
          rw [show B.deg + 1 - 1 - (j + 1) = B.deg - (j + 1) from by omega]
          calc B.coef.getD (j + 1) 0 * x ^ (B.deg - (j + 1)) * (aK / B.coef.getD 0 0) *
                x ^ (A.deg - B.deg - K)
              = B.coef.getD (j + 1) 0 * aK / B.coef.getD 0 0 *
                  (x ^ (B.deg - (j + 1)) * x ^ (A.deg - B.deg - K)) := by ring
            _ = B.coef.getD (j + 1) 0 * aK / B.coef.getD 0 0 * x ^ (A.deg - (K + j + 1)) := by
                rw [← pow_add,
                  show B.deg - (j + 1) + (A.deg - B.deg - K) = A.deg - (K + j + 1) from by omega]
        rw [Finset.sum_congr rfl hj, h0]
        ring
      have hexp2 : A.deg - B.deg + 1 - (K + 1) = A.deg - B.deg - K := by omega
      have hexp3 : A.deg - B.deg - K + 1 = A.deg - B.deg + 1 - K := by omega
      have hIH := ihev x
      calc evalL st.1 x + (0 - aK) * x ^ (A.deg - K) -
            ∑ j ∈ Finset.range B.deg,
              B.coef.getD (j + 1) 0 * aK / B.coef.getD 0 0 * x ^ (A.deg - (K + j + 1)) +
          evalL B.coef x * (evalL st.2 x * x + aK / B.coef.getD 0 0) *
            x ^ (A.deg - B.deg + 1 - (K + 1))
          = evalL st.1 x - aK * x ^ (A.deg - K) -
            ∑ j ∈ Finset.range B.deg,
              B.coef.getD (j + 1) 0 * aK / B.coef.getD 0 0 * x ^ (A.deg - (K + j + 1)) +
            evalL B.coef x * (aK / B.coef.getD 0 0) * x ^ (A.deg - B.deg - K) +
            evalL B.coef x * evalL st.2 x * (x ^ (A.deg - B.deg - K) * x) := by
            rw [hexp2]; ring
        _ = evalL st.1 x + evalL B.coef x * evalL st.2 x * x ^ (A.deg - B.deg + 1 - K) := by
            rw [hBsum, ← pow_succ, hexp3]; ring
        _ = evalL A.coef x := hIH

/-- The `i == deg + 1` branch of `update` is dead code: the scan stops at
index `deg` at the latest, so `update` always drops the scanned prefix. -/
theorem update_eq_drop (p : Poly ℚ) :
    update p = ⟨p.coef.drop (updIdx p.coef p.deg 0 (p.deg + 1)),
      p.deg - updIdx p.coef p.deg 0 (p.deg + 1)⟩ := by
  unfold update
  rw [if_neg]
  have := updIdx_le p.coef p.deg (p.deg + 1) 0 (zero_le _)
  omega

/-- C1: for all polynomials `A` and `B` over the same scalar type with
`deg A ≥ deg B` and nonzero leading coefficient of `B`, the polynomial
division `A / B` returns a quotient/remainder pair with
`A = B * quotient + remainder` (as polynomial functions, stated at every
point `x`) and `deg remainder < deg B` (the zero remainder, which arises
exactly when `deg B = 0`, has no degree and is reported as the first
disjunct); moreover dividing `[1, 0, 0, 0]` (x^3) by `[1, -1]` (x - 1)
yields quotient `[1, 1, 1]` and remainder `[1]`. -/
theorem C1_poly_division (A B : Poly ℚ) (hWA : Wf A) (hWB : Wf B)
    (hdeg : B.deg ≤ A.deg) (hB0 : B.coef.getD 0 0 ≠ 0) :
    ∃ Q R : Poly ℚ, polyDiv A B = .ok (Q, R) ∧
      (∀ x : ℚ, evalL A.coef x = evalL B.coef x * evalL Q.coef x + evalL R.coef x) ∧
      ((∀ x : ℚ, evalL R.coef x = 0) ∨ R.deg < B.deg) ∧
      polyDiv (⟨[1, 0, 0, 0], 3⟩ : Poly ℚ) ⟨[1, -1], 1⟩ = .ok (⟨[1, 1, 1], 2⟩, ⟨[1], 0⟩) := by
  obtain ⟨hlen, hqlen, hz, hev⟩ :=
    divLoop_inv A B hWA hWB hdeg hB0 (A.deg - B.deg + 1) (le_refl _)
  set st := (List.range (A.deg - B.deg + 1)).foldl (divStep B) (A.coef, ([] : List ℚ)) with hst
  have hiz : ∀ j, j < updIdx st.1 A.deg 0 (A.deg + 1) → st.1.getD j 0 = 0 :=
    fun j hj => updIdx_zeros st.1 A.deg (A.deg + 1) 0 j (zero_le _) hj
  have hRcoef : (update ⟨st.1, A.deg⟩).coef = st.1.drop (updIdx st.1 A.deg 0 (A.deg + 1)) := by
    rw [update_eq_drop]
  have hReval : ∀ x, evalL (update ⟨st.1, A.deg⟩).coef x = evalL st.1 x := by
    intro x
    rw [hRcoef]
    exact evalL_drop_of_prefix_zero st.1 _ x hiz
  refine ⟨mkPoly st.2, update ⟨st.1, A.deg⟩, ?_, ?_, ?_, by norm_num [polyDiv, divStep, divInner, update, updIdx, mkPoly, List.range_succ]⟩
  · show polyDiv A B = _
    unfold polyDiv
    rw [if_neg (by omega)]
  · intro x
    have h := hev x
    rw [Nat.sub_self, pow_zero, mul_one] at h
    rw [hReval x]
    show evalL A.coef x = evalL B.coef x * evalL st.2 x + evalL st.1 x
    rw [← h]
    ring
  · rcases Nat.eq_zero_or_pos B.deg with hm | hm
    · left
      intro x
      rw [hReval x]
      refine evalL_eq_zero_of_all_zero st.1 x (fun j hj => hz j ?_)
      omega
    · right
      have hge : A.deg - B.deg + 1 ≤ updIdx st.1 A.deg 0 (A.deg + 1) :=
        updIdx_ge st.1 A.deg (A.deg - B.deg + 1) hz (by omega) (A.deg + 1) 0 (zero_le _) (by omega)
      rw [update_eq_drop]
      show A.deg - updIdx st.1 A.deg 0 (A.deg + 1) < B.deg
      omega

/-- Witness for `C1_poly_division` at the concrete division of the claim. -/
theorem C1_poly_division_witness :
    Wf (⟨[1, 0, 0, 0], 3⟩ : Poly ℚ) ∧ Wf (⟨[1, -1], 1⟩ : Poly ℚ) ∧
      (⟨[1, -1], 1⟩ : Poly ℚ).deg ≤ (⟨[1, 0, 0, 0], 3⟩ : Poly ℚ).deg ∧
      (⟨[1, -1], 1⟩ : Poly ℚ).coef.getD 0 0 ≠ 0 ∧
      (∃ Q R : Poly ℚ, polyDiv (⟨[1, 0, 0, 0], 3⟩ : Poly ℚ) ⟨[1, -1], 1⟩ = .ok (Q, R) ∧
        (∀ x : ℚ, evalL [1, 0, 0, 0] x = evalL [1, -1] x * evalL Q.coef x + evalL R.coef x) ∧
        ((∀ x : ℚ, evalL R.coef x = 0) ∨ R.deg < 1) ∧
        polyDiv (⟨[1, 0, 0, 0], 3⟩ : Poly ℚ) ⟨[1, -1], 1⟩ = .ok (⟨[1, 1, 1], 2⟩, ⟨[1], 0⟩)) :=
  ⟨by decide, by decide, by decide, by decide,
    C1_poly_division ⟨[1, 0, 0, 0], 3⟩ ⟨[1, -1], 1⟩ (by decide) (by decide) (by decide) (by decide)⟩

/-! ## Characterisation of `plus` (claim C2) -/

theorem plus_loop_getD (lhs rhs : Poly ℚ) (hd : rhs.deg ≤ lhs.deg) (hlen : lhs.deg < lhs.coef.length) :
    ∀ K, K ≤ rhs.deg + 1 → ∀ j, j < lhs.coef.length →
      ((List.range K).foldl
        (fun t i => t.set (lhs.deg - i) (t.getD (lhs.deg - i) 0 + rhs.coef.getD (rhs.deg - i) 0))
        lhs.coef).getD j 0
      = lhs.coef.getD j 0 +
        (if 1 ≤ K ∧ lhs.deg - (K - 1) ≤ j ∧ j ≤ lhs.deg then
          rhs.coef.getD (rhs.deg - (lhs.deg - j)) 0 else 0) := by
  intro K
  induction K with
  | zero =>
    intro _ j hj
    simp
  | succ K ih =>
    intro hK j hj
    have hKd : K ≤ lhs.deg := by omega
    rw [List.range_succ, List.foldl_append, List.foldl_cons, List.foldl_nil]
    set prev := (List.range K).foldl
      (fun t i => t.set (lhs.deg - i) (t.getD (lhs.deg - i) 0 + rhs.coef.getD (rhs.deg - i) 0))
      lhs.coef with hprev
    have hplen : prev.length = lhs.coef.length := by
      rw [hprev]
      exact length_foldl_set_inv _ (fun l b => List.length_set l _ _) _ _
    by_cases hcase : j = lhs.deg - K
    · subst hcase
      rw [getD_set_self _ _ _ (by omega)]
      rw [ih (by omega) (lhs.deg - K) hj]
      have hiff : ¬ (1 ≤ K ∧ lhs.deg - (K - 1) ≤ lhs.deg - K ∧ lhs.deg - K ≤ lhs.deg) := by
        omega
      rw [if_neg hiff, if_pos (by omega)]
      have hidx : rhs.deg - (lhs.deg - (lhs.deg - K)) = rhs.deg - K := by omega
      rw [hidx]
      ring
    · rw [getD_set_ne _ _ _ _ _ (fun h => hcase h.symm)]
      rw [ih (by omega) j hj]
      congr 1
      split_ifs with h1 h2 h2
      · rfl
      · exfalso; omega
      · exfalso; omega
      · rfl

theorem plus_getD (lhs rhs : Poly ℚ) (hd : rhs.deg ≤ lhs.deg) (hlen : lhs.deg < lhs.coef.length)
    (j : ℕ) (hj : j < lhs.coef.length) :
    (plus lhs rhs).coef.getD j 0
      = lhs.coef.getD j 0 +
        (if lhs.deg - rhs.deg ≤ j ∧ j ≤ lhs.deg then
          rhs.coef.getD (rhs.deg - (lhs.deg - j)) 0 else 0) := by
  have h := plus_loop_getD lhs rhs hd hlen (rhs.deg + 1) (le_refl _) j hj
  show ((List.range (rhs.deg + 1)).foldl _ lhs.coef).getD j 0 = _
  rw [h]
  congr 1
  split_ifs with h1 h2 h2
  · rfl
  · exfalso; omega
  · exfalso; omega
  · rfl

theorem plus_length (lhs rhs : Poly ℚ) : (plus lhs rhs).coef.length = lhs.coef.length :=
  length_foldl_set_inv _ (fun l b => List.length_set l _ _) _ _

theorem pneg_getD (p : Poly ℚ) (j : ℕ) (hj : j < p.deg + 1) :
    (pneg p).coef.getD j 0 = -(p.coef.getD j 0) :=
  getD_map_range _ _ _ _ hj

/-- C2 counterexample: the claim `(A + B) - B == A` fails at `A = [1]`
(the constant 1) and `B = [1, 0]` (the polynomial x): the result is `[0, 1]`,
which is not coefficient-sequence equal to `[1]`. -/
theorem C2_counterexample :
    ¬ peq (psub (padd (⟨[1], 0⟩ : Poly ℚ) ⟨[1, 0], 1⟩) ⟨[1, 0], 1⟩) ⟨[1], 0⟩ := by
  norm_num [peq, psub, padd, plus, pneg, List.range_succ]

/-- C2 (amended): for all polynomials `A`, `B` with `deg A ≥ deg B`,
`(A + B) - B == A` under the library's coefficient-sequence equality.  (When
`deg B > deg A` the difference represents the same polynomial but keeps `B`'s
length, with leading zero coefficients, so the exact sequence equality fails;
see `C2_counterexample`.) -/
theorem C2_add_sub_cancel (A B : Poly ℚ) (hWA : Wf A) (hWB : Wf B) (hd : B.deg ≤ A.deg) :
    peq (psub (padd A B) B) A := by
  have hlenA : A.deg < A.coef.length := by
    have := hWA.2; omega
  have hpadd : padd A B = plus A B := by
    unfold padd
    rw [if_pos hd]
  have hClen : (plus A B).coef.length = A.coef.length := plus_length A B
  have hCdeg : (plus A B).deg = A.deg := rfl
  have hnegdeg : (pneg B).deg = B.deg := rfl
  have hpsub : psub (padd A B) B = plus (plus A B) (pneg B) := by
    unfold psub
    rw [hpadd]
    unfold padd
    rw [if_pos (show (pneg B).deg ≤ (plus A B).deg from by rw [hnegdeg, hCdeg]; exact hd)]
  rw [hpsub]
  unfold peq
  have hlenC : (plus A B).deg < (plus A B).coef.length := by
    rw [hCdeg, hClen]; exact hlenA
  have hlen2 : (plus (plus A B) (pneg B)).coef.length = A.coef.length := by
    rw [plus_length, hClen]
  apply List.ext_getElem (by rw [hlen2])
  intro j hj1 hj2
  have hjA : j < A.coef.length := by omega
  have hjC : j < (plus A B).coef.length := by omega
  rw [← List.getD_eq_getElem _ 0 hj1, ← List.getD_eq_getElem _ 0 hj2]
  rw [plus_getD (plus A B) (pneg B)
    (show (pneg B).deg ≤ (plus A B).deg from by rw [hnegdeg, hCdeg]; exact hd) hlenC j
    (by rw [hClen]; exact hjA)]
  rw [plus_getD A B hd hlenA j hjA]
  rw [hCdeg, hnegdeg]
  split_ifs with hcond
  · rw [pneg_getD B _ (by omega)]
    ring
  · ring

/-- Witness for `C2_add_sub_cancel` at `A = [2, 3]`, `B = [5]`. -/
theorem C2_add_sub_cancel_witness :
    Wf (⟨[2, 3], 1⟩ : Poly ℚ) ∧ Wf (⟨[5], 0⟩ : Poly ℚ) ∧
      (⟨[5], 0⟩ : Poly ℚ).deg ≤ (⟨[2, 3], 1⟩ : Poly ℚ).deg ∧
      peq (psub (padd (⟨[2, 3], 1⟩ : Poly ℚ) ⟨[5], 0⟩) ⟨[5], 0⟩) ⟨[2, 3], 1⟩ :=
  ⟨by decide, by decide, by decide,
    C2_add_sub_cancel ⟨[2, 3], 1⟩ ⟨[5], 0⟩ (by decide) (by decide) (by decide)⟩

/-! ## Claims C3 (normalize) and C7 (derivative of antiderivative) -/

/-- C3 counterexample: for `[0, 5]` (leading coefficient exactly zero)
`normalize()` leaves the coefficients unchanged but returns the original
leading coefficient `0`, not `1` as the claim states. -/
theorem C3_counterexample :
    (normalize (⟨[0, 5], 1⟩ : Poly ℚ)).1 = ⟨[0, 5], 1⟩ ∧
      (normalize (⟨[0, 5], 1⟩ : Poly ℚ)).2 ≠ 1 := by
  norm_num [normalize]

/-- C3 (amended): `normalize()` always returns the original leading
coefficient `coef[0]` (hence `0`, not `1`, when it is exactly zero); when the
leading coefficient is zero the polynomial is left unchanged, otherwise every
coefficient is divided by it. -/
theorem C3_normalize (p : Poly ℚ) (h : p.coef ≠ []) :
    (normalize p).2 = p.coef.getD 0 0 ∧
      (p.coef.getD 0 0 = 0 → (normalize p).1 = p) ∧
      (p.coef.getD 0 0 ≠ 0 →
        (normalize p).1.coef = p.coef.map (fun c => c / p.coef.getD 0 0) ∧
          (normalize p).1.deg = p.deg) := by
  unfold normalize
  split_ifs with h0
  · exact ⟨rfl, fun _ => rfl, fun hne => absurd h0 hne⟩
  · exact ⟨rfl, fun hz => absurd hz h0, fun _ => ⟨rfl, rfl⟩⟩

/-- Witness for `C3_normalize` at `p = [2, 4]`. -/
theorem C3_normalize_witness :
    (⟨[2, 4], 1⟩ : Poly ℚ).coef ≠ [] ∧
      ((normalize (⟨[2, 4], 1⟩ : Poly ℚ)).2 = ([2, 4] : List ℚ).getD 0 0 ∧
        (([2, 4] : List ℚ).getD 0 0 = 0 → (normalize (⟨[2, 4], 1⟩ : Poly ℚ)).1 = ⟨[2, 4], 1⟩) ∧
        (([2, 4] : List ℚ).getD 0 0 ≠ 0 →
          (normalize (⟨[2, 4], 1⟩ : Poly ℚ)).1.coef =
              ([2, 4] : List ℚ).map (fun c => c / ([2, 4] : List ℚ).getD 0 0) ∧
            (normalize (⟨[2, 4], 1⟩ : Poly ℚ)).1.deg = 1)) :=
  ⟨by decide, C3_normalize ⟨[2, 4], 1⟩ (by decide)⟩

theorem list_eq_map_range_getD (l : List ℚ) :
    (List.range l.length).map (fun i => l.getD i 0) = l := by
  apply List.ext_getElem (by simp)
  intro i h1 h2
  have hi : i < l.length := by simpa using h1
  rw [List.getElem_map, List.getElem_range, List.getD_eq_getElem _ 0 hi]

/-- C7: for every (well-formed) polynomial `A`,
`derivative(antiderivative(A)) == A` under the library's coefficient-sequence
equality; the antiderivative fixes the constant of integration to zero. -/
theorem C7_der_antider (A : Poly ℚ) (hWA : Wf A) : peq (der (antider A)) A := by
  unfold peq
  rcases Nat.eq_zero_or_pos A.deg with hd0 | hdpos
  · have hlen1 : A.coef.length = 1 := by have := hWA.2; omega
    obtain ⟨c, hc⟩ := List.length_eq_one.mp hlen1
    have hA : antider A = mkPoly [A.coef.getD 0 0, 0] := by
      unfold antider
      rw [if_pos hd0]
    rw [hA]
    have hder : der (mkPoly [A.coef.getD 0 0, 0]) = mkPoly [A.coef.getD 0 0] := by
      unfold der mkPoly
      norm_num
    rw [hder, hc]
    show [([c] : List ℚ).getD 0 0] = [c]
    rw [List.getD_cons_zero]
  · have hlen : A.coef.length = A.deg + 1 := hWA.2.symm
    have hA : antider A = mkPoly
        (((List.range (A.deg + 1)).map
            (fun i => A.coef.getD i 0 / ((A.deg - i + 1 : ℕ) : ℚ))) ++ [0]) := by
      unfold antider
      rw [if_neg (by omega)]
    set body := ((List.range (A.deg + 1)).map
        (fun i => A.coef.getD i 0 / ((A.deg - i + 1 : ℕ) : ℚ))) with hbody
    have hblen : body.length = A.deg + 1 := by simp [hbody]
    have hmklen : (body ++ [0]).length = A.deg + 2 := by simp [hblen]
    have hadeg : (antider A).deg = A.deg + 1 := by
      rw [hA]
      simp only [mkPoly]
      rw [hmklen]
      omega
    have hacoef : (antider A).coef = body ++ [0] := by
      rw [hA]
      simp only [mkPoly]
    have hder : der (antider A) = mkPoly ((List.range (A.deg + 1)).map
        (fun i => (antider A).coef.getD i 0 * (((antider A).deg - i : ℕ) : ℚ))) := by
      unfold der
      rw [if_neg (by omega), if_neg (by omega), hadeg]
    rw [hder]
    simp only [mkPoly]
    have hentry : ∀ i, i < A.deg + 1 →
        (antider A).coef.getD i 0 * (((antider A).deg - i : ℕ) : ℚ) = A.coef.getD i 0 := by
      intro i hi
      rw [hacoef, hadeg, List.getD_append _ _ _ _ (by omega)]
      rw [hbody, getD_map_range _ _ _ _ hi]
      have hsub : A.deg - i + 1 = A.deg + 1 - i := by omega
      have hne : ((A.deg - i + 1 : ℕ) : ℚ) ≠ 0 := Nat.cast_ne_zero.mpr (by omega)
      rw [hsub] at hne ⊢
      exact div_mul_cancel₀ _ hne
    calc (List.range (A.deg + 1)).map
          (fun i => (antider A).coef.getD i 0 * (((antider A).deg - i : ℕ) : ℚ))
        = (List.range (A.deg + 1)).map (fun i => A.coef.getD i 0) := by
          apply List.ext_getElem (by simp)
          intro i h1 h2
          have hi : i < A.deg + 1 := by simpa using h1
          rw [List.getElem_map, List.getElem_map, List.getElem_range]
          exact hentry i hi
      _ = A.coef := by
          rw [← hlen]
          exact list_eq_map_range_getD A.coef

/-- Witness for `C7_der_antider` at `A = [3, 2, 1]`. -/
theorem C7_der_antider_witness :
    Wf (⟨[3, 2, 1], 2⟩ : Poly ℚ) ∧ peq (der (antider (⟨[3, 2, 1], 2⟩ : Poly ℚ))) ⟨[3, 2, 1], 2⟩ :=
  ⟨by decide, C7_der_antider ⟨[3, 2, 1], 2⟩ (by decide)⟩

/-! ## Claim C5: division raises exactly when the dividend degree is smaller -/

/-- C5: polynomial division `A / B` fails with the degree error exactly when
`deg A < deg B`; in the error case no quotient/remainder pair is produced
(the result is the error alone), and when `deg A ≥ deg B` the division
returns a pair and does not raise. -/
theorem C5_division_error_iff (A B : Poly ℚ) :
    ((∃ e, polyDiv A B = .error e) ↔ A.deg < B.deg) ∧
      (B.deg ≤ A.deg → ∃ pr, polyDiv A B = .ok pr) := by
  unfold polyDiv
  split_ifs with h
  · refine ⟨⟨fun _ => h, fun _ => ⟨_, rfl⟩⟩, fun hle => ?_⟩
    omega
  · refine ⟨⟨fun he => ?_, fun hlt => absurd hlt h⟩, fun _ => ⟨_, rfl⟩⟩
    obtain ⟨e, he⟩ := he
    exact absurd he (by simp)

/-- Witness for `C5_division_error_iff` at `A = [1]`, `B = [1, -1]`
(the error side) combined with the claim theorem itself. -/
theorem C5_division_error_iff_witness :
    ((∃ e, polyDiv (⟨[1], 0⟩ : Poly ℚ) ⟨[1, -1], 1⟩ = .error e) ↔ (0 : ℕ) < 1) ∧
      ((1 : ℕ) ≤ 0 → ∃ pr, polyDiv (⟨[1], 0⟩ : Poly ℚ) ⟨[1, -1], 1⟩ = .ok pr) :=
  C5_division_error_iff ⟨[1], 0⟩ ⟨[1, -1], 1⟩

/-! ## Claim C9: the representation invariant -/

theorem updIdxReal_ge_start (l : List ℚ) (dg : ℕ) :
    ∀ fuel i, i ≤ updIdxReal l dg i fuel := by
  intro fuel
  induction fuel with
  | zero => intro i; simp [updIdxReal]
  | succ fuel ih =>
    intro i
    simp only [updIdxReal]
    split
    · exact le_trans (Nat.le_succ i) (ih (i + 1))
    · exact le_refl i

theorem updIdxReal_le (l : List ℚ) (dg : ℕ) :
    ∀ fuel i, i ≤ dg → updIdxReal l dg i fuel ≤ dg := by
  intro fuel
  induction fuel with
  | zero => intro i hi; simpa [updIdxReal] using hi
  | succ fuel ih =>
    intro i hi
    simp only [updIdxReal]
    split
    · next hc => exact ih (i + 1) hc.2
    · exact hi

theorem updIdxReal_ge (l : List ℚ) (dg t : ℕ)
    (hz : ∀ j, j < t → |l.getD j 0| < (1 : ℚ) / 10 ^ 8) (ht : t ≤ dg) :
    ∀ fuel i, i ≤ t → t - i ≤ fuel → t ≤ updIdxReal l dg i fuel := by
  intro fuel
  induction fuel with
  | zero => intro i hi hf; simp [updIdxReal]; omega
  | succ fuel ih =>
    intro i hi hf
    simp only [updIdxReal]
    rcases Nat.eq_or_lt_of_le hi with h | h
    · subst h
      split
      · exact le_trans (Nat.le_succ i) (updIdxReal_ge_start l dg fuel (i + 1))
      · exact le_refl i
    · have hc : |l.getD i 0| < (1 : ℚ) / 10 ^ 8 ∧ i < dg := ⟨hz i h, lt_of_lt_of_le h ht⟩
      rw [if_pos hc]
      exact ih (i + 1) h (by omega)

/-- As for `update`, the `i == deg + 1` branch of `update_real` is dead code. -/
theorem update_real_eq_drop (p : Poly ℚ) :
    update_real p = ⟨p.coef.drop (updIdxReal p.coef p.deg 0 (p.deg + 1)),
      p.deg - updIdxReal p.coef p.deg 0 (p.deg + 1)⟩ := by
  unfold update_real
  rw [if_neg]
  have := updIdxReal_le p.coef p.deg (p.deg + 1) 0 (zero_le _)
  omega

theorem divLoop_lengths (A B : Poly ℚ) :
    ∀ K, ((List.range K).foldl (divStep B) (A.coef, ([] : List ℚ))).1.length = A.coef.length ∧
      ((List.range K).foldl (divStep B) (A.coef, ([] : List ℚ))).2.length = K := by
  intro K
  induction K with
  | zero => exact ⟨rfl, rfl⟩
  | succ K ih =>
    rw [List.range_succ, List.foldl_append, List.foldl_cons, List.foldl_nil]
    refine ⟨?_, ?_⟩
    · show (divInner B _ _ _).length = _
      rw [divInner_length, List.length_set]
      exact ih.1
    · show (_ ++ [_]).length = K + 1
      rw [List.length_append, ih.2]
      rfl

theorem drop_deg_of_length (l : List ℚ) (dg : ℕ) (hl : l.length = dg + 1) :
    l.drop dg = [l.getD dg 0] := by
  have hd : dg < l.length := by omega
  have hlen1 : (l.drop dg).length = 1 := by simp [List.length_drop, hl]
  obtain ⟨a, ha⟩ := List.length_eq_one.mp hlen1
  have hidx : (0 : ℕ) < (l.drop dg).length := by omega
  have h0 : (l.drop dg).getD 0 0 = a := by rw [ha]; rfl
  rw [List.getD_eq_getElem _ 0 hidx, List.getElem_drop] at h0
  simp only [Nat.add_zero] at h0
  rw [ha, List.getD_eq_getElem _ 0 hd, ← h0]

theorem wf_update (p : Poly ℚ) (hW : Wf p) : Wf (update p) := by
  rw [update_eq_drop]
  have hle := updIdx_le p.coef p.deg (p.deg + 1) 0 (zero_le _)
  have hlen := hW.2
  constructor
  · have : (p.coef.drop (updIdx p.coef p.deg 0 (p.deg + 1))).length > 0 := by
      rw [List.length_drop]; omega
    exact List.ne_nil_of_length_pos this
  · show p.deg - updIdx p.coef p.deg 0 (p.deg + 1) + 1 =
      (p.coef.drop (updIdx p.coef p.deg 0 (p.deg + 1))).length
    rw [List.length_drop]
    omega

theorem wf_update_real (p : Poly ℚ) (hW : Wf p) : Wf (update_real p) := by
  rw [update_real_eq_drop]
  have hle := updIdxReal_le p.coef p.deg (p.deg + 1) 0 (zero_le _)
  have hlen := hW.2
  constructor
  · have : (p.coef.drop (updIdxReal p.coef p.deg 0 (p.deg + 1))).length > 0 := by
      rw [List.length_drop]; omega
    exact List.ne_nil_of_length_pos this
  · show p.deg - updIdxReal p.coef p.deg 0 (p.deg + 1) + 1 =
      (p.coef.drop (updIdxReal p.coef p.deg 0 (p.deg + 1))).length
    rw [List.length_drop]
    omega

theorem wf_plus (p q : Poly ℚ) (hWp : Wf p) : Wf (plus p q) := by
  constructor
  · have : (plus p q).coef.length > 0 := by
      rw [plus_length]
      have := hWp.2
      omega
    exact List.ne_nil_of_length_pos this
  · show p.deg + 1 = (plus p q).coef.length
    rw [plus_length]
    exact hWp.2

theorem wf_pneg (p : Poly ℚ) : Wf (pneg p) := by
  constructor
  · simp [pneg]
  · simp [pneg]

theorem wf_padd (p q : Poly ℚ) (hWp : Wf p) (hWq : Wf q) : Wf (padd p q) := by
  unfold padd
  split_ifs
  · exact wf_plus p q hWp
  · exact wf_plus q p hWq

/-- C9 counterexample: `update_real` on `[1e-9, 1e-9]` (every coefficient
near-zero) yields the degree-0 polynomial `[1e-9]`, which is not the zero
polynomial `[0]` the claim promises. -/
theorem C9_counterexample :
    (∀ j, j < 2 → |([1 / 10 ^ 9, 1 / 10 ^ 9] : List ℚ).getD j 0| < 1 / 10 ^ 8) ∧
      update_real ⟨[1 / 10 ^ 9, 1 / 10 ^ 9], 1⟩ = ⟨[1 / 10 ^ 9], 0⟩ ∧
      update_real (⟨[1 / 10 ^ 9, 1 / 10 ^ 9], 1⟩ : Poly ℚ) ≠ ⟨[0], 0⟩ := by
  have habs : |(1 : ℚ) / 10 ^ 9| = 1 / 10 ^ 9 := abs_of_pos (by norm_num)
  have hcond : ∀ j, j < 2 → |([1 / 10 ^ 9, 1 / 10 ^ 9] : List ℚ).getD j 0| < 1 / 10 ^ 8 := by
    intro j hj
    interval_cases j <;> simp only [List.getD_cons_zero, List.getD_cons_succ] <;>
      rw [habs] <;> norm_num
  have h1 : updIdxReal [1 / 10 ^ 9, 1 / 10 ^ 9] 1 1 1 = 1 := by
    simp [updIdxReal]
  have h0 : updIdxReal [1 / 10 ^ 9, 1 / 10 ^ 9] 1 0 2 = 1 := by
    rw [show (2 : ℕ) = 1 + 1 from rfl, updIdxReal]
    rw [if_pos ⟨by simp only [List.getD_cons_zero]; rw [habs]; norm_num, by norm_num⟩]
    exact h1
  have hres : update_real (⟨[1 / 10 ^ 9, 1 / 10 ^ 9], 1⟩ : Poly ℚ) = ⟨[1 / 10 ^ 9], 0⟩ := by
    rw [update_real_eq_drop]
    dsimp only
    rw [show (1 : ℕ) + 1 = 2 from rfl, h0]
    rfl
  refine ⟨hcond, hres, ?_⟩
  rw [hres]
  intro hcontra
  have := congrArg Poly.coef hcontra
  simp only [List.cons.injEq] at this
  norm_num at this

theorem wf_mkPoly (l : List ℚ) (hl : l ≠ []) : Wf (mkPoly l) := by
  have := List.length_pos.mpr hl
  exact ⟨hl, by show l.length - 1 + 1 = l.length; omega⟩

/-- C9 (amended): every public-interface operation preserves the
representation invariant (non-empty coefficient sequence, degree field equal
to length minus one): construction from a non-empty vector, the default/value
constructors, `operator+`, `operator-`, `operator*`, scalar multiply/divide,
derivative and antiderivative, `update`/`update_real`, `resize` (for a
non-increasing degree), `Clear`, and both components of polynomial division.
Trimming an all-exactly-zero polynomial yields the degree-0 zero polynomial
`[0]`; tolerance-based trimming of an all-near-zero polynomial yields a
degree-0 polynomial whose single remaining coefficient is below the `1e-8`
threshold (but is the last original coefficient, not necessarily zero; see
`C9_counterexample`). -/
theorem C9_invariant :
    (∀ l : List ℚ, l ≠ [] → Wf (mkPoly l)) ∧
    Wf (zeroPoly : Poly ℚ) ∧
    (∀ v : ℚ, Wf (constPoly v)) ∧
    (∀ (d : ℕ) (v : ℚ), Wf (polyOfDeg d v)) ∧
    (∀ p q : Poly ℚ, Wf p → Wf q → Wf (padd p q)) ∧
    (∀ p q : Poly ℚ, Wf p → Wf q → Wf (psub p q)) ∧
    (∀ p q : Poly ℚ, Wf (pmul p q)) ∧
    (∀ (p : Poly ℚ) (v : ℚ), Wf (smul p v) ∧ Wf (sdiv p v)) ∧
    (∀ p : Poly ℚ, Wf (der p) ∧ Wf (antider p)) ∧
    (∀ p : Poly ℚ, Wf p → Wf (update p) ∧ Wf (update_real p)) ∧
    (∀ (p : Poly ℚ) (d : ℕ), Wf p → d ≤ p.deg → Wf (resizeP p d)) ∧
    (∀ p : Poly ℚ, Wf (clearP p)) ∧
    (∀ p q Q R : Poly ℚ, Wf p → polyDiv p q = .ok (Q, R) → Wf Q ∧ Wf R) ∧
    (∀ p : Poly ℚ, Wf p → (∀ j, j < p.coef.length → p.coef.getD j 0 = 0) →
      update p = ⟨[0], 0⟩) ∧
    (∀ p : Poly ℚ, Wf p → (∀ j, j < p.coef.length → |p.coef.getD j 0| < 1 / 10 ^ 8) →
      (update_real p).deg = 0 ∧ |(update_real p).coef.getD 0 0| < 1 / 10 ^ 8) := by
  refine ⟨?_, ?_, ?_, ?_, ?_, ?_, ?_, ?_, ?_, ?_, ?_, ?_, ?_, ?_, ?_⟩
  · exact wf_mkPoly
  · exact ⟨by simp [zeroPoly], by simp [zeroPoly]⟩
  · intro v
    exact ⟨by simp [constPoly], by simp [constPoly]⟩
  · intro d v
    refine ⟨by simp [polyOfDeg], ?_⟩
    show d + 1 = (List.replicate (d + 1) v).length
    simp
  · exact fun p q hp hq => wf_padd p q hp hq
  · exact fun p q hp hq => wf_padd p (pneg q) hp (wf_pneg q)
  · intro p q
    have hlen : (pmul p q).coef.length = p.deg + q.deg + 1 := by
      unfold pmul
      dsimp only
      rw [length_foldl_set_inv _ (fun r i => length_foldl_set_inv _
        (fun l b => List.length_set l _ _) _ r) _ _]
      simp
    refine ⟨List.ne_nil_of_length_pos (by omega), ?_⟩
    show p.deg + q.deg + 1 = (pmul p q).coef.length
    omega
  · intro p v
    constructor
    · unfold smul
      split_ifs
      · exact ⟨by simp, by simp⟩
      · exact ⟨by simp, by simp⟩
    · exact ⟨by simp [sdiv], by simp [sdiv]⟩
  · intro p
    constructor
    · unfold der
      split_ifs with h0 h1
      · exact ⟨by simp [mkPoly], by simp [mkPoly, h0]⟩
      · exact ⟨by simp [mkPoly], by simp [mkPoly, h1]⟩
      · refine ⟨?_, ?_⟩
        · apply List.ne_nil_of_length_pos
          simp only [mkPoly, List.length_map, List.length_range]
          omega
        · simp only [mkPoly, List.length_map, List.length_range]
          omega
    · unfold antider
      split_ifs with h0
      · exact ⟨by simp [mkPoly], by simp [mkPoly]⟩
      · refine ⟨?_, ?_⟩
        · simp [mkPoly]
        · simp only [mkPoly, List.length_append, List.length_map, List.length_range,
            List.length_cons, List.length_nil]
          omega
  · exact fun p hp => ⟨wf_update p hp, wf_update_real p hp⟩
  · intro p d hp hd
    have := hp.2
    refine ⟨?_, ?_⟩
    · have : (p.coef.drop (p.deg - d)).length > 0 := by
        rw [List.length_drop]; omega
      exact List.ne_nil_of_length_pos this
    · show d + 1 = (p.coef.drop (p.deg - d)).length
      rw [List.length_drop]
      omega
  · exact fun p => ⟨by simp [clearP], by simp [clearP]⟩
  · intro p q Q R hp heq
    unfold polyDiv at heq
    split_ifs at heq with hlt
    obtain ⟨hlen1, hlen2⟩ := divLoop_lengths p q (p.deg - q.deg + 1)
    have hpair := Except.ok.inj heq
    have hQ := congrArg Prod.fst hpair
    have hR := congrArg Prod.snd hpair
    simp only at hQ hR
    constructor
    · rw [← hQ]
      apply wf_mkPoly
      apply List.ne_nil_of_length_pos
      omega
    · rw [← hR]
      refine wf_update _ ⟨?_, ?_⟩
      · exact List.ne_nil_of_length_pos (by rw [hlen1]; have := hp.2; omega)
      · show p.deg + 1 = _
        rw [hlen1]
        exact hp.2
  · intro p hp hz
    have hlen := hp.2
    have hzdeg : ∀ j, j < p.deg → p.coef.getD j 0 = 0 := fun j hj => hz j (by omega)
    have hge : p.deg ≤ updIdx p.coef p.deg 0 (p.deg + 1) :=
      updIdx_ge p.coef p.deg p.deg hzdeg (le_refl _) (p.deg + 1) 0 (zero_le _) (by omega)
    have hle := updIdx_le p.coef p.deg (p.deg + 1) 0 (zero_le _)
    have heqi : updIdx p.coef p.deg 0 (p.deg + 1) = p.deg := by omega
    rw [update_eq_drop, heqi, drop_deg_of_length p.coef p.deg hlen.symm]
    rw [hz p.deg (by omega)]
    simp
  · intro p hp hz
    have hlen := hp.2
    have hzdeg : ∀ j, j < p.deg → |p.coef.getD j 0| < 1 / 10 ^ 8 :=
      fun j hj => hz j (by omega)
    have hge : p.deg ≤ updIdxReal p.coef p.deg 0 (p.deg + 1) :=
      updIdxReal_ge p.coef p.deg p.deg hzdeg (le_refl _) (p.deg + 1) 0 (zero_le _) (by omega)
    have hle := updIdxReal_le p.coef p.deg (p.deg + 1) 0 (zero_le _)
    have heqi : updIdxReal p.coef p.deg 0 (p.deg + 1) = p.deg := by omega
    rw [update_real_eq_drop, heqi, drop_deg_of_length p.coef p.deg hlen.symm]
    exact ⟨by simp, by simp only [List.getD_cons_zero]; exact hz p.deg (by omega)⟩

/-- Witness for `C9_invariant`: concrete instances of the hypothesis-bearing
conjuncts. -/
theorem C9_invariant_witness :
    Wf (padd (⟨[1, 2], 1⟩ : Poly ℚ) ⟨[3], 0⟩) ∧ Wf (update (⟨[0, 0, 7], 2⟩ : Poly ℚ)) ∧
      update (⟨[0, 0, 0], 2⟩ : Poly ℚ) = ⟨[0], 0⟩ := by
  obtain ⟨h1, h2, h3, h4, h5, h6, h7, h8, h9, h10, h11, h12, h13, h14, h15⟩ := C9_invariant
  refine ⟨h5 ⟨[1, 2], 1⟩ ⟨[3], 0⟩ (by decide) (by decide),
    (h10 ⟨[0, 0, 7], 2⟩ (by decide)).1,
    h14 ⟨[0, 0, 0], 2⟩ (by decide) (fun j hj => ?_)⟩
  have hj3 : j < 3 := by simpa using hj
  interval_cases j <;> rfl


/-! ## The root solvers (`solve_quadratic`, `solve_cubic`, `solve_numerical`)

The transcendental library functions (`std::sqrt`, `std::acos`, `std::cos`,
`std::pow`, `M_PI` on reals; `std::sqrt` and `std::abs` on complex values)
are modelled as explicit parameters, collected in `RModels` and `CModels`;
every theorem below is stated for all instantiations of these parameters. -/

/-- Models of the transcendental real functions used by the closed-form
quadratic and cubic solvers. -/
structure RModels where
  rsqrt : ℚ → ℚ
  racos : ℚ → ℚ
  rcos : ℚ → ℚ
  rpow : ℚ → ℚ → ℚ
  rpi : ℚ

/-- Models of the complex magnitude (`std::abs`) and complex square root
(`std::sqrt`) used by the numerical solvers. -/
structure CModels where
  csqrt : GQ → GQ
  cabs : GQ → ℚ

/-- The class member `EPS = 1e-15`. -/
def polyEPS : ℚ := 1 / 10 ^ 15

/-- The Laguerre tolerance `eps = 1e-12`. -/
def lagEps : ℚ := 1 / 10 ^ 12

/-- The cubic solver's branch tolerance `1e-12`. -/
def cubicTol : ℚ := 1 / 10 ^ 12

/-- The trailing-coefficient strip tolerance `1e-16` of `solve_laguerre`. -/
def stripTol : ℚ := 1 / 10 ^ 16

/-- `solve_quadratic`: discriminant `D = b*b - 4*a*c`; a double root when
`|D| < EPS`, two real roots when `D > 0`, otherwise a conjugate complex
pair.  The locals `a, b, c, D` of the source are inlined (the function is
pure, so re-reading them is equivalent). -/
def solve_quadratic (R : RModels) (p : Poly ℚ) : List (ℕ × GQ) :=
  if |getC p 1 * getC p 1 - 4 * getC p 0 * getC p 2| < polyEPS then
    [(2, ratC (-(getC p 1) / 2 / getC p 0))]
  else if getC p 1 * getC p 1 - 4 * getC p 0 * getC p 2 > 0 then
    [(1, ratC ((-(getC p 1) + R.rsqrt (getC p 1 * getC p 1 - 4 * getC p 0 * getC p 2)) / 2
        / getC p 0)),
     (1, ratC ((-(getC p 1) - R.rsqrt (getC p 1 * getC p 1 - 4 * getC p 0 * getC p 2)) / 2
        / getC p 0))]
  else
    [(1, ⟨-(getC p 1) / 2 / getC p 0,
          R.rsqrt (-(getC p 1 * getC p 1 - 4 * getC p 0 * getC p 2)) / 2 / getC p 0⟩),
     (1, ⟨-(getC p 1) / 2 / getC p 0,
          -(R.rsqrt (-(getC p 1 * getC p 1 - 4 * getC p 0 * getC p 2)) / 2 / getC p 0)⟩)]

/-- The normalised coefficient `a = poly[1]/poly[0]` of the cubic solver. -/
def cubA (p : Poly ℚ) : ℚ := getC p 1 / getC p 0

/-- `b = poly[2]/poly[0]`. -/
def cubB (p : Poly ℚ) : ℚ := getC p 2 / getC p 0

/-- `c = poly[3]/poly[0]`. -/
def cubC (p : Poly ℚ) : ℚ := getC p 3 / getC p 0

/-- `q = a*a - 3b`. -/
def cubQsmall (p : Poly ℚ) : ℚ := cubA p * cubA p - 3 * cubB p

/-- `r = 2a^3 - 9ab + 27c`. -/
def cubRsmall (p : Poly ℚ) : ℚ :=
  2 * cubA p * cubA p * cubA p - 9 * cubA p * cubB p + 27 * cubC p

/-- `Q = q/9`. -/
def cubQ (p : Poly ℚ) : ℚ := cubQsmall p / 9

/-- `R = r/54`. -/
def cubR (p : Poly ℚ) : ℚ := cubRsmall p / 54

/-- The Cardano radical `A = -sgn(R) * pow(|R| + sqrt(R^2 - Q^3), 1/3)`. -/
def cubCardanoA (R : RModels) (p : Poly ℚ) : ℚ :=
  -(if cubR p ≥ 0 then (1 : ℚ) else -1) *
    R.rpow (|cubR p| + R.rsqrt (cubR p * cubR p - cubQ p * cubQ p * cubQ p)) (1 / 3)

/-- The real root found in the general branch, `A + Q/A - a/3`. -/
def cubRoot (R : RModels) (p : Poly ℚ) : ℚ :=
  cubCardanoA R p + cubQ p / cubCardanoA R p - cubA p / 3

/-- `solve_cubic`: the four-way classification of the source (triple root,
double+single via `|729 r^2 - 2916 q^3| < 1e-12`, three real roots via the
trigonometric formula, or one real root plus a deflated quadratic).  The
source's scalar locals are named helper functions above. -/
def solve_cubic (R : RModels) (p : Poly ℚ) : List (ℕ × GQ) :=
  if |cubR p| < cubicTol ∧ |cubQ p| < cubicTol then
    [(3, ratC (-(cubA p) / 3))]
  else if |729 * cubRsmall p * cubRsmall p -
      2916 * cubQsmall p * cubQsmall p * cubQsmall p| < cubicTol then
    if cubR p > 0 then
      [(1, ratC (-2 * R.rsqrt (cubQ p) - cubA p / 3)),
       (2, ratC (R.rsqrt (cubQ p) - cubA p / 3))]
    else
      [(2, ratC (-(R.rsqrt (cubQ p)) - cubA p / 3)),
       (1, ratC (2 * R.rsqrt (cubQ p) - cubA p / 3))]
  else if cubR p * cubR p < cubQ p * cubQ p * cubQ p then
    [(1, ratC (-2 * R.rsqrt (cubQ p) *
        R.rcos (R.racos ((if cubR p ≥ 0 then (1 : ℚ) else -1) *
          R.rsqrt (cubR p * cubR p / (cubQ p * cubQ p * cubQ p))) / 3) - cubA p / 3)),
     (1, ratC (-2 * R.rsqrt (cubQ p) *
        R.rcos ((R.racos ((if cubR p ≥ 0 then (1 : ℚ) else -1) *
          R.rsqrt (cubR p * cubR p / (cubQ p * cubQ p * cubQ p))) + 2 * R.rpi) / 3) -
          cubA p / 3)),
     (1, ratC (-2 * R.rsqrt (cubQ p) *
        R.rcos ((R.racos ((if cubR p ≥ 0 then (1 : ℚ) else -1) *
          R.rsqrt (cubR p * cubR p / (cubQ p * cubQ p * cubQ p))) - 2 * R.rpi) / 3) -
          cubA p / 3))]
  else
    solve_quadratic R (divQuot p ⟨[1, -(cubRoot R p)], 1⟩) ++ [(1, ratC (cubRoot R p))]

/-- The companion matrix built by `solve_with_eigenvalues`: last column
`m(i-1, n-1) = -poly[n-i+1]` for `i = 1..n`, subdiagonal ones. -/
def companion (p : Poly ℚ) (n : ℕ) : ℕ → ℕ → ℚ := fun r c =>
  if c = n - 1 then -(p.coef.getD (n - r) 0)
  else if r = c + 1 then 1 else 0

/-- `solve_with_eigenvalues`: normalise unless already monic, build the
companion matrix and return its eigenvalues as simple roots, snapping
magnitudes below `EPS` to zero.  The eigenvalue routine lives in the external
Eigen library, outside this repository; it is passed as the parameter `eig`
and the spec-modelled fact that an `n x n` matrix has `n` eigenvalues is a
hypothesis of the theorems using it. -/
def solve_with_eigenvalues (M : CModels) (eig : ℕ → (ℕ → ℕ → ℚ) → List GQ)
    (poly : Poly ℚ) : List (ℕ × GQ) :=
  let p := if getC poly 0 ≠ 1 then (normalize poly).1 else poly
  (eig p.deg (companion p p.deg)).map (fun z => (1, if M.cabs z < polyEPS then 0 else z))

/-- `upper_bound` on a complex polynomial: `1 +` the largest magnitude of
`poly[i]/poly[0]` over `i = 1..deg` (initialised at `i = 1`, loop from 2). -/
def upper_bound (M : CModels) (p : Poly GQ) : ℚ :=
  1 + (List.range (p.deg - 1)).foldl
    (fun ub k => if M.cabs (getC p (k + 2) / getC p 0) > ub
      then M.cabs (getC p (k + 2) / getC p 0) else ub)
    (M.cabs (getC p 1 / getC p 0))

/-- `lower_bound = 1 / upper_bound`. -/
def lower_bound (M : CModels) (p : Poly GQ) : ℚ := 1 / upper_bound M p

/-- The trailing-coefficient scan of `solve_laguerre`:
`while (|poly[deg-k]| < 1e-16) ++k`.  The source loop is unbounded (running
past `k = deg` indexes out of bounds, undefined behaviour); the model gives
it fuel `deg + 1`, covering every defined execution. -/
def stripCount (p : Poly ℚ) : ℕ → ℕ → ℕ
  | k, 0 => k
  | k, fuel + 1 =>
    if |p.coef.getD (p.deg - k) 0| < stripTol then stripCount p (k + 1) fuel else k

/-- `G = p1(x)/p(x)` inside the Laguerre step. -/
def lagG (p p1 : Poly GQ) (x : GQ) : GQ := eval p1 x / eval p x

/-- `H = G*G - p11(x)/p(x)`. -/
def lagH (p p1 p11 : Poly GQ) (x : GQ) : GQ :=
  lagG p p1 x * lagG p p1 x - eval p11 x / eval p x

/-- The shared square root `sqrt((deg-1) * (deg*H - G*G))`. -/
def lagS (M : CModels) (p p1 p11 : Poly GQ) (dg : ℕ) (x : GQ) : GQ :=
  M.csqrt (((dg - 1 : ℕ) : GQ) * (((dg : ℕ) : GQ) * lagH p p1 p11 x - lagG p p1 x * lagG p p1 x))

/-- `d1 = G + sqrt(...)`. -/
def lagD1 (M : CModels) (p p1 p11 : Poly GQ) (dg : ℕ) (x : GQ) : GQ :=
  lagG p p1 x + lagS M p p1 p11 dg x

/-- `d2 = G - sqrt(...)`. -/
def lagD2 (M : CModels) (p p1 p11 : Poly GQ) (dg : ℕ) (x : GQ) : GQ :=
  lagG p p1 x - lagS M p p1 p11 dg x

/-- The Laguerre correction `a = deg / (|d1| > |d2| ? d1 : d2)`. -/
def lagA (M : CModels) (p p1 p11 : Poly GQ) (dg : ℕ) (x : GQ) : GQ :=
  ((dg : ℕ) : GQ) /
    (if M.cabs (lagD1 M p p1 p11 dg x) > M.cabs (lagD2 M p p1 p11 dg x)
      then lagD1 M p p1 p11 dg x else lagD2 M p p1 p11 dg x)

/-- The inner `for (k = 0; k < 1000; ++k)` Laguerre iteration: break when the
residual `|p(x)|` or the step `|a|` falls below `eps`, else `x -= a`.
Returns the final iterate. -/
def laguerreIter (M : CModels) (p p1 p11 : Poly GQ) (dg : ℕ) : GQ → ℕ → GQ
  | x, 0 => x
  | x, fuel + 1 =>
    if M.cabs (eval p x) < lagEps then x
    else if M.cabs (lagA M p p1 p11 dg x) < lagEps then x
    else laguerreIter M p p1 p11 dg (x - lagA M p p1 p11 dg x) fuel

/-- Instrumented inner iteration: additionally reports whether the loop exited
through one of its two tolerance breaks (`true`) or by exhausting the
1000-step cap (`false`).  The first component coincides with `laguerreIter`
(`laguerreIter_eq_instr`). -/
def laguerreIterInstr (M : CModels) (p p1 p11 : Poly GQ) (dg : ℕ) : GQ → ℕ → GQ × Bool
  | x, 0 => (x, false)
  | x, fuel + 1 =>
    if M.cabs (eval p x) < lagEps then (x, true)
    else if M.cabs (lagA M p p1 p11 dg x) < lagEps then (x, true)
    else laguerreIterInstr M p p1 p11 dg (x - lagA M p p1 p11 dg x) fuel

/-- The outer deflation loop `while (d < deg)`: find a root from the starting
guess `lower_bound(p)`, record it with multiplicity `m = 1`, divide `p` by
`(x - root)` and continue.  `dg` is the `deg` variable of the source, fixed
before the loop and not updated during deflation.  The loop runs exactly
`deg` times (`d` increments once per pass), which is the fuel `n`. -/
def laguerreOuter (M : CModels) (dg : ℕ) : Poly GQ → ℕ → List (ℕ × GQ)
  | _, 0 => []
  | p, n + 1 =>
    (1, laguerreIter M p (der p) (der (der p)) dg (ratC (lower_bound M p)) 1000) ::
      laguerreOuter M dg
        (divQuot p ⟨[1, -(laguerreIter M p (der p) (der (der p)) dg
          (ratC (lower_bound M p)) 1000)], 1⟩) n

/-- Instrumented outer loop, carrying the convergence flag of each root. -/
def laguerreOuterInstr (M : CModels) (dg : ℕ) : Poly GQ → ℕ → List (ℕ × GQ × Bool)
  | _, 0 => []
  | p, n + 1 =>
    (1, laguerreIterInstr M p (der p) (der (der p)) dg (ratC (lower_bound M p)) 1000) ::
      laguerreOuterInstr M dg
        (divQuot p ⟨[1, -(laguerreIterInstr M p (der p) (der (der p)) dg
          (ratC (lower_bound M p)) 1000).1], 1⟩) n

/-- `solve_laguerre`: strip trailing near-zero coefficients (recording them
as a zero root of that multiplicity), copy the remaining coefficients into a
complex polynomial and run the deflation loop. -/
def solve_laguerre (M : CModels) (poly : Poly ℚ) : List (ℕ × GQ) :=
  (if stripCount poly 0 (poly.deg + 1) ≠ 0
    then [(stripCount poly 0 (poly.deg + 1), (0 : GQ))] else []) ++
    laguerreOuter M (poly.deg - stripCount poly 0 (poly.deg + 1))
      ⟨(List.range (poly.deg - stripCount poly 0 (poly.deg + 1) + 1)).map
        (fun i => ratC (poly.coef.getD i 0)), poly.deg - stripCount poly 0 (poly.deg + 1)⟩
      (poly.deg - stripCount poly 0 (poly.deg + 1))

/-- Instrumented `solve_laguerre`; the stripped zero root is tagged converged
(it is exact), each iterated root carries its inner loop's exit flag. -/
def solve_laguerreInstr (M : CModels) (poly : Poly ℚ) : List (ℕ × GQ × Bool) :=
  (if stripCount poly 0 (poly.deg + 1) ≠ 0
    then [(stripCount poly 0 (poly.deg + 1), ((0 : GQ), true))] else []) ++
    laguerreOuterInstr M (poly.deg - stripCount poly 0 (poly.deg + 1))
      ⟨(List.range (poly.deg - stripCount poly 0 (poly.deg + 1) + 1)).map
        (fun i => ratC (poly.coef.getD i 0)), poly.deg - stripCount poly 0 (poly.deg + 1)⟩
      (poly.deg - stripCount poly 0 (poly.deg + 1))

/-- `solve_numerical`: strategy dispatch on `type`. -/
def solve_numerical (M : CModels) (eig : ℕ → (ℕ → ℕ → ℚ) → List GQ) (ty : ℤ)
    (poly : Poly ℚ) : List (ℕ × GQ) :=
  if ty = 1 then solve_with_eigenvalues M eig poly else solve_laguerre M poly

/-- `Poly::solve(type)`: dispatch by degree (1, 2, 3, >= 4, else a single
zero root). -/
def solve (M : CModels) (R : RModels) (eig : ℕ → (ℕ → ℕ → ℚ) → List GQ) (ty : ℤ)
    (p : Poly ℚ) : List (ℕ × GQ) :=
  if p.deg = 1 then [(1, ratC (-(getC p 1) / getC p 0))]
  else if p.deg = 2 then solve_quadratic R p
  else if p.deg = 3 then solve_cubic R p
  else if 4 ≤ p.deg then solve_numerical M eig ty p
  else [(1, 0)]

/-- The sum of the multiplicities of a root list. -/
def multSum (l : List (ℕ × GQ)) : ℕ := (l.map Prod.fst).sum


/-! ## Claim C6: multiplicities sum to the degree -/

theorem multSum_append (l1 l2 : List (ℕ × GQ)) :
    multSum (l1 ++ l2) = multSum l1 + multSum l2 := by
  simp [multSum]

theorem sum_map_one {γ : Type} (l : List γ) : (l.map (fun _ => (1 : ℕ))).sum = l.length := by
  induction l with
  | nil => rfl
  | cons a l ih => simp [ih]; omega

theorem multSum_quadratic (R : RModels) (p : Poly ℚ) :
    multSum (solve_quadratic R p) = 2 := by
  unfold solve_quadratic
  split_ifs <;> rfl

theorem multSum_cubic (R : RModels) (p : Poly ℚ) : multSum (solve_cubic R p) = 3 := by
  unfold solve_cubic
  split_ifs <;> first
    | rfl
    | (rw [multSum_append, multSum_quadratic]; rfl)

theorem normalize_deg (p : Poly ℚ) : (normalize p).1.deg = p.deg := by
  unfold normalize
  split_ifs <;> rfl

theorem multSum_eigen (M : CModels) (eig : ℕ → (ℕ → ℕ → ℚ) → List GQ)
    (heig : ∀ n m, (eig n m).length = n) (poly : Poly ℚ) :
    multSum (solve_with_eigenvalues M eig poly) = poly.deg := by
  unfold solve_with_eigenvalues
  have hdeg : (if getC poly 0 ≠ 1 then (normalize poly).1 else poly).deg = poly.deg := by
    split_ifs
    · exact normalize_deg poly
    · rfl
  simp only [multSum, List.map_map]
  have : (Prod.fst ∘ fun z : GQ => ((1 : ℕ), if M.cabs z < polyEPS then 0 else z)) =
      fun _ => (1 : ℕ) := rfl
  rw [this, sum_map_one, heig, hdeg]

theorem multSum_laguerreOuter (M : CModels) (dg : ℕ) :
    ∀ (n : ℕ) (p : Poly GQ), multSum (laguerreOuter M dg p n) = n := by
  intro n
  induction n with
  | zero => intro p; rfl
  | succ n ih =>
    intro p
    simp only [laguerreOuter, multSum, List.map_cons, List.sum_cons]
    have h := ih (divQuot p ⟨[1, -(laguerreIter M p (der p) (der (der p)) dg
      (ratC (lower_bound M p)) 1000)], 1⟩)
    simp only [multSum] at h
    omega

theorem stripCount_le (p : Poly ℚ) (h : stripTol ≤ |p.coef.getD 0 0|) :
    ∀ fuel k, k ≤ p.deg → p.deg - k < fuel → stripCount p k fuel ≤ p.deg := by
  intro fuel
  induction fuel with
  | zero => intro k hk hf; omega
  | succ fuel ih =>
    intro k hk hf
    simp only [stripCount]
    split_ifs with hc
    · rcases Nat.eq_or_lt_of_le hk with he | hlt
      · exfalso
        rw [he, Nat.sub_self] at hc
        linarith
      · exact ih (k + 1) hlt (by omega)
    · exact hk

theorem multSum_solve_laguerre (M : CModels) (poly : Poly ℚ)
    (h : stripTol ≤ |poly.coef.getD 0 0|) : multSum (solve_laguerre M poly) = poly.deg := by
  have hk : stripCount poly 0 (poly.deg + 1) ≤ poly.deg :=
    stripCount_le poly h (poly.deg + 1) 0 (zero_le _) (by omega)
  unfold solve_laguerre
  rw [multSum_append, multSum_laguerreOuter]
  split_ifs with h0
  · simp only [multSum, List.map_cons, List.map_nil, List.sum_cons, List.sum_nil]
    omega
  · simp only [multSum, List.map_nil, List.sum_nil]
    omega

/-- C6: for every polynomial of degree `n >= 1` (well-formed, with the
spec's caveat that near-zero leading coefficients are excluded for the
Laguerre strategy, whose trailing strip otherwise runs out of bounds), the
root list returned by `solve` under every dispatch branch - linear,
quadratic, cubic, eigen-decomposition (for every model of the eigenvalue
routine returning `n` eigenvalues) and Laguerre (for every model of the
complex sqrt/abs) - has multiplicities summing to `n`. -/
theorem C6_solve_multiplicities (M : CModels) (R : RModels)
    (eig : ℕ → (ℕ → ℕ → ℚ) → List GQ) (heig : ∀ n m, (eig n m).length = n) (ty : ℤ)
    (p : Poly ℚ) (hW : Wf p) (hdeg : 1 ≤ p.deg)
    (hlead : 4 ≤ p.deg → ty ≠ 1 → stripTol ≤ |p.coef.getD 0 0|) :
    multSum (solve M R eig ty p) = p.deg := by
  unfold solve
  split_ifs with h1 h2 h3 h4
  · simp only [multSum, List.map_cons, List.map_nil, List.sum_cons, List.sum_nil]
    omega
  · rw [multSum_quadratic]
    omega
  · rw [multSum_cubic]
    omega
  · unfold solve_numerical
    split_ifs with hty
    · exact multSum_eigen M eig heig p
    · exact multSum_solve_laguerre M p (hlead h4 hty)
  · omega

/-- Witness for `C6_solve_multiplicities`: the linear polynomial `[1, 2]`
under the eigen-decomposition type with trivial models. -/
theorem C6_solve_multiplicities_witness :
    (∀ n m, ((fun (n : ℕ) (_ : ℕ → ℕ → ℚ) => List.replicate n (0 : GQ)) n m).length = n) ∧
      Wf (⟨[1, 2], 1⟩ : Poly ℚ) ∧ 1 ≤ (⟨[1, 2], 1⟩ : Poly ℚ).deg ∧
      multSum (solve ⟨fun _ => 0, fun _ => 0⟩ ⟨fun _ => 0, fun _ => 0, fun _ => 0,
        fun _ _ => 0, 0⟩ (fun n _ => List.replicate n 0) 1 ⟨[1, 2], 1⟩) = 1 :=
  ⟨fun n m => List.length_replicate n 0, by decide, by decide,
    C6_solve_multiplicities ⟨fun _ => 0, fun _ => 0⟩
      ⟨fun _ => 0, fun _ => 0, fun _ => 0, fun _ _ => 0, 0⟩
      (fun n _ => List.replicate n 0) (fun n m => List.length_replicate n 0) 1
      ⟨[1, 2], 1⟩ (by decide) (by decide) (fun h4 _ => absurd h4 (by norm_num))⟩


/-! ## Claim C4: non-convergence of the Laguerre iteration is not surfaced

`solve_laguerre` has no error channel: its return type carries roots only,
and the root found by each inner iteration is recorded unconditionally,
whether the loop exited through a tolerance break or by exhausting its
1000-step cap.  The instrumented variants above make the exit mode
observable; the claim is formalised over every model of the complex
sqrt/magnitude and refuted by a concrete instantiation below. -/

theorem laguerreIter_eq_instr (M : CModels) (p p1 p11 : Poly GQ) (dg : ℕ) :
    ∀ (fuel : ℕ) (x : GQ),
      (laguerreIterInstr M p p1 p11 dg x fuel).1 = laguerreIter M p p1 p11 dg x fuel := by
  intro fuel
  induction fuel with
  | zero => intro x; rfl
  | succ fuel ih =>
    intro x
    simp only [laguerreIter, laguerreIterInstr]
    split_ifs <;> first | rfl | exact ih _

theorem laguerreOuter_eq_instr (M : CModels) (dg : ℕ) :
    ∀ (n : ℕ) (p : Poly GQ),
      (laguerreOuterInstr M dg p n).map (fun t => (t.1, t.2.1)) = laguerreOuter M dg p n := by
  intro n
  induction n with
  | zero => intro p; rfl
  | succ n ih =>
    intro p
    simp only [laguerreOuterInstr, laguerreOuter, List.map_cons]
    rw [laguerreIter_eq_instr, ih]

theorem solve_laguerre_eq_instr (M : CModels) (poly : Poly ℚ) :
    (solve_laguerreInstr M poly).map (fun t => (t.1, t.2.1)) = solve_laguerre M poly := by
  unfold solve_laguerreInstr solve_laguerre
  rw [List.map_append]
  congr 1
  · split_ifs <;> rfl
  · exact laguerreOuter_eq_instr M _ _ _

/-- Formalisation of C4 as stated: under every model of the complex
square root and magnitude, no root recorded by the Laguerre strategy comes
from an inner iteration that exhausted its 1000-step cap (equivalently,
since the code has no error channel at all, an unconverged iterate is never
part of the returned root list). -/
def C4_claim : Prop :=
  ∀ (M : CModels) (poly : Poly ℚ) (i : ℕ) (x : GQ),
    (i, x, false) ∈ solve_laguerreInstr M poly → False

/-- A concrete computable model of the complex magnitude (`std::abs`),
exact on real and purely imaginary inputs - the only inputs the concrete
runs below ever consult. -/
def cabs0 : GQ → ℚ := fun z => if z.im = 0 then |z.re| else if z.re = 0 then |z.im| else 0

/-- A concrete instantiation of the transcendental models: the runs below
only consult `csqrt` at points where the accepted-iterate property being
exhibited does not depend on its value (the code pushes the iterate whatever
the square root evaluates to). -/
def M0 : CModels := ⟨fun _ => 0, cabs0⟩

/-- The complex copy of `x^2 + 4` handed to the deflation loop. -/
def pC : Poly GQ := ⟨[⟨1, 0⟩, ⟨0, 0⟩, ⟨4, 0⟩], 2⟩

/-- `der pC`. -/
def pCd : Poly GQ := ⟨[⟨2, 0⟩, ⟨0, 0⟩], 1⟩

/-- `der (der pC)`. -/
def pCdd : Poly GQ := ⟨[⟨2, 0⟩], 0⟩

/-- The quotient of `pC` by `(x - 1/5)`. -/
def pD : Poly GQ := ⟨[⟨1, 0⟩, ⟨1 / 5, 0⟩], 1⟩

/-- `der pD`. -/
def pDd : Poly GQ := ⟨[⟨1, 0⟩], 0⟩

/-- `der (der pD)`. -/
def pDdd : Poly GQ := ⟨[⟨0, 0⟩], 0⟩

theorem GQ_mk_add (a b c d : ℚ) : (⟨a, b⟩ : GQ) + ⟨c, d⟩ = ⟨a + c, b + d⟩ := rfl

theorem GQ_mk_neg (a b : ℚ) : -(⟨a, b⟩ : GQ) = ⟨-a, -b⟩ := rfl

theorem GQ_mk_sub (a b c d : ℚ) : (⟨a, b⟩ : GQ) - ⟨c, d⟩ = ⟨a - c, b - d⟩ := by
  show (⟨a, b⟩ : GQ) + -⟨c, d⟩ = _
  rw [GQ_mk_neg, GQ_mk_add]
  congr 1 <;> ring

theorem GQ_mk_mul (a b c d : ℚ) :
    (⟨a, b⟩ : GQ) * ⟨c, d⟩ = ⟨a * c - b * d, a * d + b * c⟩ := rfl

theorem GQ_mk_div (a b c d : ℚ) :
    (⟨a, b⟩ : GQ) / ⟨c, d⟩ =
      ⟨(a * c + b * d) / (c * c + d * d), (b * c - a * d) / (c * c + d * d)⟩ := rfl

theorem GQ_zero_def : (0 : GQ) = ⟨0, 0⟩ := rfl

theorem GQ_one_def : (1 : GQ) = ⟨1, 0⟩ := rfl

theorem GQ_natCast_def (n : ℕ) : ((n : ℕ) : GQ) = ⟨(n : ℚ), 0⟩ := rfl

theorem ratC_def (q : ℚ) : ratC q = ⟨q, 0⟩ := rfl

theorem cabs0_real (a : ℚ) : cabs0 ⟨a, 0⟩ = |a| := by simp [cabs0]

theorem der_pC : der pC = pCd := by
  norm_num [der, pC, pCd, mkPoly, GQ_natCast_def, GQ_mk_mul, List.range_succ]

theorem der_pCd : der pCd = pCdd := by
  norm_num [der, pCd, pCdd, mkPoly]

theorem der_pD : der pD = pDd := by
  norm_num [der, pD, pDd, mkPoly]

theorem der_pDd : der pDd = pDdd := rfl

theorem lower_bound_pC : lower_bound M0 pC = 1 / 5 := by
  norm_num [lower_bound, upper_bound, pC, M0, getC, GQ_mk_div, cabs0, List.range_succ]

theorem lower_bound_pD : lower_bound M0 pD = 5 / 6 := by
  have h : |(1 : ℚ) / 5| = 1 / 5 := abs_of_pos (by norm_num)
  norm_num [lower_bound, upper_bound, pD, M0, getC, GQ_mk_div, cabs0, List.range_succ, h]


theorem eval_pC_a : eval pC ⟨1 / 5, 0⟩ = ⟨101 / 25, 0⟩ := by
  unfold eval
  rw [if_neg (by norm_num [pC])]
  simp only [pC, List.reverse_cons, List.reverse_nil, List.nil_append, List.cons_append,
    List.foldl_cons, List.foldl_nil, GQ_zero_def, GQ_one_def, GQ_mk_add, GQ_mk_mul]
  norm_num

theorem eval_pC_b : eval pC ⟨-20, 0⟩ = ⟨404, 0⟩ := by
  unfold eval
  rw [if_neg (by norm_num [pC])]
  simp only [pC, List.reverse_cons, List.reverse_nil, List.nil_append, List.cons_append,
    List.foldl_cons, List.foldl_nil, GQ_zero_def, GQ_one_def, GQ_mk_add, GQ_mk_mul]
  norm_num

theorem eval_pCd_a : eval pCd ⟨1 / 5, 0⟩ = ⟨2 / 5, 0⟩ := by
  unfold eval
  rw [if_neg (by norm_num [pCd])]
  simp only [pCd, List.reverse_cons, List.reverse_nil, List.nil_append, List.cons_append,
    List.foldl_cons, List.foldl_nil, GQ_zero_def, GQ_one_def, GQ_mk_add, GQ_mk_mul]
  norm_num

theorem eval_pCd_b : eval pCd ⟨-20, 0⟩ = ⟨-40, 0⟩ := by
  unfold eval
  rw [if_neg (by norm_num [pCd])]
  simp only [pCd, List.reverse_cons, List.reverse_nil, List.nil_append, List.cons_append,
    List.foldl_cons, List.foldl_nil, GQ_zero_def, GQ_one_def, GQ_mk_add, GQ_mk_mul]
  norm_num

theorem eval_pCdd_any (x : GQ) : eval pCdd x = ⟨2, 0⟩ := rfl

theorem lagA_pC_a : lagA M0 pC pCd pCdd 2 ⟨1 / 5, 0⟩ = ⟨101 / 5, 0⟩ := by
  have hG : lagG pC pCd ⟨1 / 5, 0⟩ = ⟨10 / 101, 0⟩ := by
    rw [lagG, eval_pC_a, eval_pCd_a, GQ_mk_div]
    norm_num
  have hS : lagS M0 pC pCd pCdd 2 ⟨1 / 5, 0⟩ = ⟨0, 0⟩ := rfl
  have hd1 : lagD1 M0 pC pCd pCdd 2 ⟨1 / 5, 0⟩ = ⟨10 / 101, 0⟩ := by
    rw [lagD1, hG, hS, GQ_mk_add]
    norm_num
  have hd2 : lagD2 M0 pC pCd pCdd 2 ⟨1 / 5, 0⟩ = ⟨10 / 101, 0⟩ := by
    rw [lagD2, hG, hS, GQ_mk_sub]
    norm_num
  unfold lagA
  rw [hd1, hd2, if_neg (lt_irrefl _)]
  simp only [GQ_natCast_def, GQ_mk_div]
  norm_num

theorem lagA_pC_b : lagA M0 pC pCd pCdd 2 ⟨-20, 0⟩ = ⟨-101 / 5, 0⟩ := by
  have hG : lagG pC pCd ⟨-20, 0⟩ = ⟨-10 / 101, 0⟩ := by
    rw [lagG, eval_pC_b, eval_pCd_b, GQ_mk_div]
    norm_num
  have hS : lagS M0 pC pCd pCdd 2 ⟨-20, 0⟩ = ⟨0, 0⟩ := rfl
  have hd1 : lagD1 M0 pC pCd pCdd 2 ⟨-20, 0⟩ = ⟨-10 / 101, 0⟩ := by
    rw [lagD1, hG, hS, GQ_mk_add]
    norm_num
  have hd2 : lagD2 M0 pC pCd pCdd 2 ⟨-20, 0⟩ = ⟨-10 / 101, 0⟩ := by
    rw [lagD2, hG, hS, GQ_mk_sub]
    norm_num
  unfold lagA
  rw [hd1, hd2, if_neg (lt_irrefl _)]
  simp only [GQ_natCast_def, GQ_mk_div]
  norm_num

theorem lag1_stepA (fuel : ℕ) :
    laguerreIterInstr M0 pC pCd pCdd 2 ⟨1 / 5, 0⟩ (fuel + 1) =
      laguerreIterInstr M0 pC pCd pCdd 2 ⟨-20, 0⟩ fuel := by
  have h1 : ¬ (M0.cabs (eval pC ⟨1 / 5, 0⟩) < lagEps) := by
    rw [eval_pC_a]
    show ¬ (cabs0 _ < _)
    rw [cabs0_real]
    norm_num [lagEps, abs_lt]
  have h2 : ¬ (M0.cabs (lagA M0 pC pCd pCdd 2 ⟨1 / 5, 0⟩) < lagEps) := by
    rw [lagA_pC_a]
    show ¬ (cabs0 _ < _)
    rw [cabs0_real]
    norm_num [lagEps, abs_lt]
  simp only [laguerreIterInstr]
  rw [if_neg h1, if_neg h2, lagA_pC_a, GQ_mk_sub]
  norm_num

theorem lag1_stepB (fuel : ℕ) :
    laguerreIterInstr M0 pC pCd pCdd 2 ⟨-20, 0⟩ (fuel + 1) =
      laguerreIterInstr M0 pC pCd pCdd 2 ⟨1 / 5, 0⟩ fuel := by
  have h1 : ¬ (M0.cabs (eval pC ⟨-20, 0⟩) < lagEps) := by
    rw [eval_pC_b]
    show ¬ (cabs0 _ < _)
    rw [cabs0_real]
    norm_num [lagEps, abs_lt]
  have h2 : ¬ (M0.cabs (lagA M0 pC pCd pCdd 2 ⟨-20, 0⟩) < lagEps) := by
    rw [lagA_pC_b]
    show ¬ (cabs0 _ < _)
    rw [cabs0_real]
    norm_num [lagEps, abs_lt]
  simp only [laguerreIterInstr]
  rw [if_neg h1, if_neg h2, lagA_pC_b, GQ_mk_sub]
  norm_num

theorem lag1_cycle : ∀ n : ℕ,
    laguerreIterInstr M0 pC pCd pCdd 2 ⟨1 / 5, 0⟩ (2 * n) = (⟨1 / 5, 0⟩, false) := by
  intro n
  induction n with
  | zero => rfl
  | succ n ih =>
    rw [show 2 * (n + 1) = 2 * n + 1 + 1 from by ring, lag1_stepA, lag1_stepB]
    exact ih

theorem eval_pD_a : eval pD ⟨5 / 6, 0⟩ = ⟨31 / 30, 0⟩ := by
  unfold eval
  rw [if_neg (by norm_num [pD])]
  simp only [pD, List.reverse_cons, List.reverse_nil, List.nil_append, List.cons_append,
    List.foldl_cons, List.foldl_nil, GQ_zero_def, GQ_one_def, GQ_mk_add, GQ_mk_mul]
  norm_num

theorem eval_pD_b : eval pD ⟨-37 / 30, 0⟩ = ⟨-31 / 30, 0⟩ := by
  unfold eval
  rw [if_neg (by norm_num [pD])]
  simp only [pD, List.reverse_cons, List.reverse_nil, List.nil_append, List.cons_append,
    List.foldl_cons, List.foldl_nil, GQ_zero_def, GQ_one_def, GQ_mk_add, GQ_mk_mul]
  norm_num

theorem eval_pDd_any (x : GQ) : eval pDd x = ⟨1, 0⟩ := rfl

theorem eval_pDdd_any (x : GQ) : eval pDdd x = ⟨0, 0⟩ := rfl

theorem lagA_pD_a : lagA M0 pD pDd pDdd 2 ⟨5 / 6, 0⟩ = ⟨31 / 15, 0⟩ := by
  have hG : lagG pD pDd ⟨5 / 6, 0⟩ = ⟨30 / 31, 0⟩ := by
    rw [lagG, eval_pD_a, eval_pDd_any _, GQ_mk_div]
    norm_num
  have hS : lagS M0 pD pDd pDdd 2 ⟨5 / 6, 0⟩ = ⟨0, 0⟩ := rfl
  have hd1 : lagD1 M0 pD pDd pDdd 2 ⟨5 / 6, 0⟩ = ⟨30 / 31, 0⟩ := by
    rw [lagD1, hG, hS, GQ_mk_add]
    norm_num
  have hd2 : lagD2 M0 pD pDd pDdd 2 ⟨5 / 6, 0⟩ = ⟨30 / 31, 0⟩ := by
    rw [lagD2, hG, hS, GQ_mk_sub]
    norm_num
  unfold lagA
  rw [hd1, hd2, if_neg (lt_irrefl _)]
  simp only [GQ_natCast_def, GQ_mk_div]
  norm_num

theorem lagA_pD_b : lagA M0 pD pDd pDdd 2 ⟨-37 / 30, 0⟩ = ⟨-31 / 15, 0⟩ := by
  have hG : lagG pD pDd ⟨-37 / 30, 0⟩ = ⟨-30 / 31, 0⟩ := by
    rw [lagG, eval_pD_b, eval_pDd_any _, GQ_mk_div]
    norm_num
  have hS : lagS M0 pD pDd pDdd 2 ⟨-37 / 30, 0⟩ = ⟨0, 0⟩ := rfl
  have hd1 : lagD1 M0 pD pDd pDdd 2 ⟨-37 / 30, 0⟩ = ⟨-30 / 31, 0⟩ := by
    rw [lagD1, hG, hS, GQ_mk_add]
    norm_num
  have hd2 : lagD2 M0 pD pDd pDdd 2 ⟨-37 / 30, 0⟩ = ⟨-30 / 31, 0⟩ := by
    rw [lagD2, hG, hS, GQ_mk_sub]
    norm_num
  unfold lagA
  rw [hd1, hd2, if_neg (lt_irrefl _)]
  simp only [GQ_natCast_def, GQ_mk_div]
  norm_num

theorem divQuot_pC : divQuot pC ⟨[1, -⟨1 / 5, 0⟩], 1⟩ = pD := by
  simp only [divQuot, polyDiv, divStep, divInner, update, updIdx, mkPoly, pC, pD,
    List.range_succ, List.range_zero, List.nil_append, List.cons_append, List.foldl_cons,
    List.foldl_nil, List.map_cons, List.map_nil, GQ_one_def, GQ_mk_neg, GQ_mk_mul,
    GQ_mk_add, GQ_mk_sub, GQ_mk_div, GQ_zero_def, List.getD_cons_zero, List.getD_cons_succ,
    List.set_cons_zero, List.set_cons_succ]
  norm_num

theorem lag2_stepA (fuel : ℕ) :
    laguerreIterInstr M0 pD pDd pDdd 2 ⟨5 / 6, 0⟩ (fuel + 1) =
      laguerreIterInstr M0 pD pDd pDdd 2 ⟨-37 / 30, 0⟩ fuel := by
  have h1 : ¬ (M0.cabs (eval pD ⟨5 / 6, 0⟩) < lagEps) := by
    rw [eval_pD_a]
    show ¬ (cabs0 _ < _)
    rw [cabs0_real]
    norm_num [lagEps, abs_lt]
  have h2 : ¬ (M0.cabs (lagA M0 pD pDd pDdd 2 ⟨5 / 6, 0⟩) < lagEps) := by
    rw [lagA_pD_a]
    show ¬ (cabs0 _ < _)
    rw [cabs0_real]
    norm_num [lagEps, abs_lt]
  simp only [laguerreIterInstr]
  rw [if_neg h1, if_neg h2, lagA_pD_a, GQ_mk_sub]
  norm_num

theorem lag2_stepB (fuel : ℕ) :
    laguerreIterInstr M0 pD pDd pDdd 2 ⟨-37 / 30, 0⟩ (fuel + 1) =
      laguerreIterInstr M0 pD pDd pDdd 2 ⟨5 / 6, 0⟩ fuel := by
  have h1 : ¬ (M0.cabs (eval pD ⟨-37 / 30, 0⟩) < lagEps) := by
    rw [eval_pD_b]
    show ¬ (cabs0 _ < _)
    rw [cabs0_real]
    norm_num [lagEps, abs_lt]
  have h2 : ¬ (M0.cabs (lagA M0 pD pDd pDdd 2 ⟨-37 / 30, 0⟩) < lagEps) := by
    rw [lagA_pD_b]
    show ¬ (cabs0 _ < _)
    rw [cabs0_real]
    norm_num [lagEps, abs_lt]
  simp only [laguerreIterInstr]
  rw [if_neg h1, if_neg h2, lagA_pD_b, GQ_mk_sub]
  norm_num

theorem lag2_cycle : ∀ n : ℕ,
    laguerreIterInstr M0 pD pDd pDdd 2 ⟨5 / 6, 0⟩ (2 * n) = (⟨5 / 6, 0⟩, false) := by
  intro n
  induction n with
  | zero => rfl
  | succ n ih =>
    rw [show 2 * (n + 1) = 2 * n + 1 + 1 from by ring, lag2_stepA, lag2_stepB]
    exact ih


theorem outer_run_M0 : laguerreOuterInstr M0 2 pC 2 =
    [(1, ⟨1 / 5, 0⟩, false), (1, ⟨5 / 6, 0⟩, false)] := by
  have e1 : laguerreOuterInstr M0 2 pC 2 =
      (1, laguerreIterInstr M0 pC (der pC) (der (der pC)) 2 (ratC (lower_bound M0 pC)) 1000) ::
        laguerreOuterInstr M0 2
          (divQuot pC ⟨[1, -(laguerreIterInstr M0 pC (der pC) (der (der pC)) 2
            (ratC (lower_bound M0 pC)) 1000).1], 1⟩) 1 := rfl
  rw [e1, der_pC, der_pCd, lower_bound_pC, ratC_def,
    show (1000 : ℕ) = 2 * 500 from by norm_num, lag1_cycle]
  dsimp only
  rw [divQuot_pC]
  have e2 : laguerreOuterInstr M0 2 pD 1 =
      (1, laguerreIterInstr M0 pD (der pD) (der (der pD)) 2 (ratC (lower_bound M0 pD)) 1000) ::
        laguerreOuterInstr M0 2
          (divQuot pD ⟨[1, -(laguerreIterInstr M0 pD (der pD) (der (der pD)) 2
            (ratC (lower_bound M0 pD)) 1000).1], 1⟩) 0 := rfl
  rw [e2, der_pD, der_pDd, lower_bound_pD, ratC_def,
    show (1000 : ℕ) = 2 * 500 from by norm_num, lag2_cycle]
  rfl

theorem lag_run_M0 : solve_laguerreInstr M0 ⟨[1, 0, 4], 2⟩ =
    [(1, ⟨1 / 5, 0⟩, false), (1, ⟨5 / 6, 0⟩, false)] := by
  have hk : stripCount (⟨[1, 0, 4], 2⟩ : Poly ℚ) 0 (2 + 1) = 0 := by
    have hstep : stripCount (⟨[1, 0, 4], 2⟩ : Poly ℚ) 0 (2 + 1) =
        if |(⟨[1, 0, 4], 2⟩ : Poly ℚ).coef.getD ((⟨[1, 0, 4], 2⟩ : Poly ℚ).deg - 0) 0| < stripTol
          then stripCount (⟨[1, 0, 4], 2⟩ : Poly ℚ) 1 2 else 0 := rfl
    rw [hstep, if_neg (show ¬ _ from by norm_num [stripTol, abs_lt])]
  have hpoly : (⟨(List.range ((⟨[1, 0, 4], 2⟩ : Poly ℚ).deg - 0 + 1)).map
      (fun i => ratC ((⟨[1, 0, 4], 2⟩ : Poly ℚ).coef.getD i 0)),
      (⟨[1, 0, 4], 2⟩ : Poly ℚ).deg - 0⟩ : Poly GQ) = pC := by
    simp [pC, ratC_def, List.range_succ]
  unfold solve_laguerreInstr
  rw [show (⟨[1, 0, 4], 2⟩ : Poly ℚ).deg + 1 = 2 + 1 from rfl, hk, if_neg (by norm_num)]
  rw [List.nil_append, hpoly]
  rw [show (⟨[1, 0, 4], 2⟩ : Poly ℚ).deg - 0 = 2 from rfl]
  exact outer_run_M0

/-- C4 counterexample: under the concrete model `M0` the Laguerre strategy on
`x^2 + 4` cycles (both inner iterations alternate between two iterates and
exhaust the 1000-step cap), yet both unconverged iterates are recorded as
roots and no error of any kind is produced: the claim that a NonConvergence
error is surfaced and unconverged iterates are never accepted is false. -/
theorem C4_counterexample :
    ¬ C4_claim ∧
      solve_laguerreInstr M0 ⟨[1, 0, 4], 2⟩ =
        [(1, ⟨1 / 5, 0⟩, false), (1, ⟨5 / 6, 0⟩, false)] ∧
      ¬ (M0.cabs (eval pC ⟨1 / 5, 0⟩) < lagEps) := by
  refine ⟨fun hclaim => ?_, lag_run_M0, ?_⟩
  · exact hclaim M0 ⟨[1, 0, 4], 2⟩ 1 ⟨1 / 5, 0⟩
      (by rw [lag_run_M0]; exact List.mem_cons_self _ _)
  · rw [eval_pC_a]
    show ¬ (cabs0 _ < _)
    rw [cabs0_real]
    norm_num [lagEps, abs_lt]

/-- C4 (amended): `solve_laguerre` surfaces no error of any kind - its
return type has no error channel and each inner iteration's final iterate is
recorded as a root unconditionally, whether the iteration exited through a
tolerance break or by exhausting its 1000-step cap (flag `false` in the
instrumented run).  Stated for every model of the complex sqrt/magnitude. -/
theorem C4_cap_iterate_accepted (M : CModels) (poly : Poly ℚ) (i : ℕ) (x : GQ) (conv : Bool)
    (h : (i, x, conv) ∈ solve_laguerreInstr M poly) : (i, x) ∈ solve_laguerre M poly := by
  rw [← solve_laguerre_eq_instr]
  exact List.mem_map.mpr ⟨(i, x, conv), h, rfl⟩

/-- Witness for `C4_cap_iterate_accepted`: the unconverged iterate `1/5` of
the run on `x^2 + 4` is in the returned root list. -/
theorem C4_cap_iterate_accepted_witness :
    (1, (⟨1 / 5, 0⟩ : GQ)) ∈ solve_laguerre M0 ⟨[1, 0, 4], 2⟩ :=
  C4_cap_iterate_accepted M0 ⟨[1, 0, 4], 2⟩ 1 ⟨1 / 5, 0⟩ false
    (by rw [lag_run_M0]; exact List.mem_cons_self _ _)


/-! ## Claim C10: `NURBS::get_points` reads the parameter array out of bounds

`get_points` (src/unnamed/part_000, lines 168-183) samples `N` points.  Its
inner loop body ends with `++i; t = ts[i];`, so after producing the last
sample (`i = N-1`) it increments `i` to `N` and reads `ts[N]` before the
`i < N` test stops the loop: an out-of-bounds read of the length-`N`
parameter array.  The embedding below records every index at which `ts` is
read.  The out-of-bounds read returns the default `0` in the model (C++
undefined behaviour); the loop exits immediately afterwards either way. -/

/-- The fields of a constructed `NURBS<T>` curve that `get_points` consults:
degree, dimension, segment count, knots, segment-boundary knot indices,
domain index pair, and the per-segment rational coefficients. -/
structure NCurve where
  p : ℕ
  dim : ℕ
  Nseg : ℕ
  knots : List ℚ
  ks : List ℕ
  domain : ℕ × ℕ
  coefs : List (List (Poly ℚ) × Poly ℚ)

/-- Modelled from the spec: `linspace(a, b, N)` (include/tools.h, absent from
src/) returns "N parameter values evenly spaced over the curve's domain",
from `a` to `b` inclusive. -/
def linspace (a b : ℚ) (n : ℕ) : List ℚ :=
  (List.range n).map (fun i => a + (b - a) * i / ((n : ℚ) - 1))

/-- The loop state of `get_points`: sample index `i`, current parameter `t`,
the point array, and the instrumentation: every index at which `ts` has been
read. -/
structure GPState where
  i : ℕ
  t : ℚ
  pts : List (List ℚ)
  reads : List ℕ

/-- The inner loop body of `get_points`: fill `points[i]` by evaluating each
numerator and the shared denominator at `t`, then `++i; t = ts[i]` (the read
of `ts` at the new `i` is recorded). -/
def gpBody (c : NCurve) (ts : List ℚ) (j : ℕ) (st : GPState) : GPState :=
  { i := st.i + 1,
    t := ts.getD (st.i + 1) 0,
    pts := st.pts.set st.i ((List.range c.dim).map
      (fun d => At ((c.coefs.getD j ([], ⟨[0], 0⟩)).1.getD d ⟨[0], 0⟩) st.t /
        At (c.coefs.getD j ([], ⟨[0], 0⟩)).2 st.t)),
    reads := st.reads ++ [st.i + 1] }

/-- The inner `while (t <= knots[ks[j+1]] && i < N)` loop.  `i` strictly
increases and the loop requires `i < N`, so it runs at most `N` times; fuel
`N` therefore covers every execution. -/
def gpInner (c : NCurve) (ts : List ℚ) (N j : ℕ) : GPState → ℕ → GPState
  | st, 0 => st
  | st, fuel + 1 =>
    if st.t ≤ c.knots.getD (c.ks.getD (j + 1) 0) 0 ∧ st.i < N then
      gpInner c ts N j (gpBody c ts j st) fuel
    else st

/-- The parameter array `ts` of `get_points(N)`. -/
def gpTs (c : NCurve) (N : ℕ) : List ℚ :=
  linspace (c.knots.getD c.domain.1 0) (c.knots.getD c.domain.2 0) N

/-- `get_points(N)`, instrumented: returns the point array and the list of
indices at which the parameter array `ts` was read. -/
def get_points_instr (c : NCurve) (N : ℕ) : List (List ℚ) × List ℕ :=
  (((List.range c.Nseg).foldl (fun st j => gpInner c (gpTs c N) N j st N)
      ⟨0, c.knots.getD c.domain.1 0, List.replicate N (List.replicate c.dim 0), []⟩).pts,
   ((List.range c.Nseg).foldl (fun st j => gpInner c (gpTs c N) N j st N)
      ⟨0, c.knots.getD c.domain.1 0, List.replicate N (List.replicate c.dim 0), []⟩).reads)

/-- The spec's concrete degree-1 curve: open-uniform knots `[0,0,1,1]`,
2 one-dimensional control points `0` and `1`, unit weights.  Its constructed
fields (domain `(1,2)`, one segment with boundary indices `[1,2]`, segment
numerator `t` and denominator `1` after polishing) are obtained by hand from
the constructor and `de_boor_nurbs`. -/
def curve1 : NCurve := ⟨1, 1, 1, [0, 0, 1, 1], [1, 2], (1, 2), [([⟨[1, 0], 1⟩], ⟨[1], 0⟩)]⟩

/-- C10 is a code bug: on the spec's own concrete degree-1 curve,
`get_points(2)` produces the correct two points but reads the length-2
parameter array at index `2 = N` after the last sample - the loop body
increments `i` and reads `ts[i]` before the `i < N` test runs.  The claim
(all accesses in bounds, index `N` never read) is the spec's intent and the
code violates it. -/
theorem C10_get_points_reads_index_N :
    get_points_instr curve1 2 = ([[0], [1]], [1, 2]) ∧
      (2 : ℕ) ∈ (get_points_instr curve1 2).2 ∧
      (get_points_instr curve1 2).1.length = 2 := by
  have hts : gpTs curve1 2 = [0, 1] := by
    norm_num [gpTs, curve1, linspace, List.range_succ]
  have h : get_points_instr curve1 2 = ([[0], [1]], [1, 2]) := by
    unfold get_points_instr
    rw [hts]
    norm_num [curve1, gpInner, gpBody, At, List.range_succ]
    rfl
  refine ⟨h, ?_, ?_⟩
  · rw [h]
    simp
  · rw [h]
    rfl

end BS
